import Mathlib

/-!
# Verification of the hyperlink link checker

A shallow embedding of the core of the `hyperlink` static-site link checker:

* `src/collector.rs` — the `BrokenLinkCollector` aggregator (`LinkState`,
  `ingest`, `merge`, `get_broken_links`);
* `src/main.rs` — the checker driver: discovery, parallel aggregation of
  link events into `BTreeMap`/`BTreeSet`, defect classification, report
  emission and the exit-code ladder;
* `src/trie.rs` — the byte-keyed `Trie` map;
* `src/interner.rs` — the arena-backed `StringInterner`.

Hrefs and file paths are byte strings; we embed them as `List Nat` (the
source compares and hashes hrefs as raw bytes, and `BTreeMap`/`BTreeSet`
over them order by byte-wise lexicographic comparison, which is the
`LinearOrder` on `List Nat`).  Paragraph fingerprints are `u64` values,
embedded as `Nat`.
-/

/-- Byte strings: the embedding of hrefs, file paths and trie keys. -/
abbrev Str : Type := List Nat

/-- Paragraph fingerprints (`u64` in the source). -/
abbrev Fp : Type := Nat

/-- Modelled from the spec: `Href::without_anchor` lives in the missing
`src/html.rs`; per the spec, anchor stripping "is defined as truncation at
the first `#` byte (if any)".  Byte 35 is `#`. -/
def withoutAnchor (h : Str) : Str :=
  h.takeWhile (fun b => b != 35)

/-- A *Uses* event: `html::UsedLink` — `{href, path, paragraph}`. -/
structure UsedLink where
  href : Str
  path : Str
  paragraph : Option Fp
deriving DecidableEq

/-- A *Defines* event: `html::DefinedLink` — `{href}`. -/
structure DefinedLink where
  href : Str
deriving DecidableEq

/-- `html::Link`: the tagged link-event variant consumed by collectors. -/
inductive Link where
  | uses (l : UsedLink)
  | defines (l : DefinedLink)
deriving DecidableEq

/-- `collector::LinkState` (collector.rs:58-65): per-href resolution state.
`undefined` carries the append-only witness list of
`(path, paragraph)` pairs. -/
inductive LinkState where
  | defined
  | undefined (links : List (Str × Option Fp))
deriving DecidableEq

/-- `LinkState::add_usage` (collector.rs:73-77): push a witness onto an
`Undefined` state; no-op on `Defined`. -/
def LinkState.addUsage (s : LinkState) (l : UsedLink) : LinkState :=
  match s with
  | .undefined links => .undefined (links ++ [(l.path, l.paragraph)])
  | .defined => .defined

/-- `LinkState::update` (collector.rs:79-87): the monoid action used by
`merge`: `Defined` absorbs, two `Undefined`s concatenate witnesses. -/
def LinkState.update (s other : LinkState) : LinkState :=
  match s with
  | .defined => .defined
  | .undefined links =>
    match other with
    | .defined => .defined
    | .undefined links2 => .undefined (links ++ links2)

/-- `collector::BrokenLinkCollector` (collector.rs:90-97).  The patricia
map `links` is a finite map from href bytes to `LinkState`; we embed it
extensionally as `Str → Option LinkState`.  `used_link_count` is the
`Uses`-event counter. -/
structure BrokenLinkCollector where
  links : Str → Option LinkState
  usedLinkCount : Nat

/-- `BrokenLinkCollector::new` (collector.rs:100-111): empty index. -/
def BrokenLinkCollector.new : BrokenLinkCollector :=
  { links := fun _ => none, usedLinkCount := 0 }

/-- `BrokenLinkCollector::ingest` (collector.rs:113-129).
On `Uses`: bump the counter and append a witness to the href's state,
creating a fresh `Undefined` entry when absent.  On `Defines`: overwrite
the href's state with `Defined`. -/
def BrokenLinkCollector.ingest (c : BrokenLinkCollector) (link : Link) :
    BrokenLinkCollector :=
  match link with
  | .uses usedLink =>
    { usedLinkCount := c.usedLinkCount + 1
      links := fun h =>
        if h = usedLink.href then
          match c.links usedLink.href with
          | some state => some (state.addUsage usedLink)
          | none => some ((LinkState.undefined []).addUsage usedLink)
        else c.links h }
  | .defines definedLink =>
    { usedLinkCount := c.usedLinkCount
      links := fun h =>
        if h = definedLink.href then some .defined else c.links h }

/-- `BrokenLinkCollector::merge` (collector.rs:131-142).  Counters add;
for each href present in `other`, apply `LinkState::update` against the
entry of `self` (inserting `other`'s state when `self` has none). -/
def BrokenLinkCollector.merge (c other : BrokenLinkCollector) :
    BrokenLinkCollector :=
  { usedLinkCount := c.usedLinkCount + other.usedLinkCount
    links := fun h =>
      match other.links h with
      | none => c.links h
      | some otherState =>
        match c.links h with
        | some state => some (state.update otherState)
        | none => some otherState }

/-- Sequential ingestion of an event stream (one worker's extraction). -/
def BrokenLinkCollector.ingestAll (c : BrokenLinkCollector)
    (l : List Link) : BrokenLinkCollector :=
  l.foldl BrokenLinkCollector.ingest c

/-- `collector::BrokenLink` (collector.rs:145-149): one reported defect. -/
structure BrokenLink where
  hard404 : Bool
  link : UsedLink
deriving DecidableEq

/-- The `hard_404` computation of `get_broken_links`
(collector.rs:165-172): with `check_anchors`, a broken href is hard iff
the anchor-stripped href is not `Defined` in the index; without
`check_anchors` every broken href is hard. -/
def BrokenLinkCollector.hard404Of (c : BrokenLinkCollector)
    (checkAnchors : Bool) (h : Str) : Bool :=
  if checkAnchors then
    !(decide (c.links (withoutAnchor h) = some LinkState.defined))
  else true

/-- The per-href yield of `get_broken_links` (collector.rs:159-188): an
href still `Undefined` after all merges yields one `BrokenLink` per
witness, all carrying the same `hard_404` flag; `Defined` or absent
hrefs yield nothing. -/
def BrokenLinkCollector.brokenLinksOf (c : BrokenLinkCollector)
    (checkAnchors : Bool) (h : Str) : List BrokenLink :=
  match c.links h with
  | some (.undefined links) =>
    links.map fun pw =>
      { hard404 := c.hard404Of checkAnchors h
        link := { href := h, path := pw.1, paragraph := pw.2 } }
  | _ => []

/-! ## Order-free semantics of the collector

`SemState` is a `LinkState` with the witness list abstracted to a
multiset; `canonical` computes the per-href state an event stream should
produce, independently of order and partitioning. -/

/-- A per-href state with witnesses as a multiset (order abstracted). -/
inductive SemState where
  | defined
  | undefined (ws : Multiset (Str × Option Fp))
deriving DecidableEq

/-- Forget witness order in an optional `LinkState`. -/
def stateSem : Option LinkState → Option SemState
  | none => none
  | some .defined => some .defined
  | some (.undefined ws) => some (.undefined ↑ws)

/-- All `(path, paragraph)` witnesses that a stream of events records for
a given href, in stream order. -/
def usesOf (l : List Link) (h : Str) : List (Str × Option Fp) :=
  l.filterMap fun e =>
    match e with
    | .uses u => if u.href = h then some (u.path, u.paragraph) else none
    | .defines _ => none

/-- The canonical per-href state of an event stream: `defined` as soon as
some `Defines(h)` occurs, otherwise `undefined` with the multiset of all
use witnesses, and absent when the href never occurs. -/
def canonical (l : List Link) (h : Str) : Option SemState :=
  if Link.defines ⟨h⟩ ∈ l then some .defined
  else if usesOf l h = [] then none
  else some (.undefined ↑(usesOf l h))

/-- The monoid operation on optional semantic states: `defined` absorbs,
two `undefined`s add their witness multisets, `none` is the identity. -/
def semMerge : Option SemState → Option SemState → Option SemState
  | s, none => s
  | none, some t => some t
  | some .defined, some _ => some .defined
  | some (.undefined _), some .defined => some .defined
  | some (.undefined ws), some (.undefined ws2) => some (.undefined (ws + ws2))

/-- Merge trees: an arbitrary partitioning of an event stream across
workers (the leaves) together with an arbitrary grouping and order of the
`merge` fan-in (the nodes). -/
inductive MTree where
  | leaf (events : List Link)
  | node (t1 t2 : MTree)

/-- Run a merge tree: each leaf ingests its shard into a fresh collector,
each node merges the two sub-results. -/
def MTree.run : MTree → BrokenLinkCollector
  | .leaf events => BrokenLinkCollector.new.ingestAll events
  | .node t1 t2 => t1.run.merge t2.run

/-- The combined event stream of a merge tree, left to right. -/
def MTree.events : MTree → List Link
  | .leaf events => events
  | .node t1 t2 => t1.events ++ t2.events

/-! ## Collector lemmas -/

/-- A `BTreeMap` with byte-string keys: an association list kept sorted
by strictly ascending key; iteration order is the list order. -/
abbrev SMap (ν : Type) : Type := List (Str × ν)

/-- The `map.entry(k).or_insert_with(dflt)` + update idiom: apply `f` to
the value at `k`, inserting `f dflt` at the sorted position if absent. -/
def SMap.entryApply (m : SMap ν) (k : Str) (dflt : ν) (f : ν → ν) :
    SMap ν :=
  match m with
  | [] => [(k, f dflt)]
  | (k2, v) :: rest =>
    if k = k2 then (k2, f v) :: rest
    else if k < k2 then (k, f dflt) :: (k2, v) :: rest
    else (k2, v) :: SMap.entryApply rest k dflt f

/-- `BTreeMap::get`. -/
def SMap.lookup (m : SMap ν) (k : Str) : Option ν :=
  match m with
  | [] => none
  | (k2, v) :: rest => if k = k2 then some v else SMap.lookup rest k

/-- `BTreeSet::insert` on the defined-href set (only membership is ever
consumed downstream). -/
def setInsert (s : List Str) (x : Str) : List Str :=
  if x ∈ s then s else s ++ [x]

/-- One step of the driver's aggregation fold (main.rs:107-124): `Uses`
pushes the full `UsedLink` onto `used_links[href]`; `Defines` inserts
the href into `defined_links`. -/
def driverStep (acc : SMap (List UsedLink) × List Str) (e : Link) :
    SMap (List UsedLink) × List Str :=
  match e with
  | .uses u => (SMap.entryApply acc.1 u.href [] (fun v => v ++ [u]), acc.2)
  | .defines d => (acc.1, setInsert acc.2 d.href)

/-- The driver's aggregation of an event stream into
`(used_links, defined_links)` (main.rs:103-141). -/
def driverAggregate (events : List Link) : SMap (List UsedLink) × List Str :=
  events.foldl driverStep ([], [])

/-- All full `UsedLink` records of a stream for a given href, in stream
order. -/
def usesFull (l : List Link) (h : Str) : List UsedLink :=
  l.filterMap fun e =>
    match e with
    | .uses u => if u.href = h then some u else none
    | .defines _ => none

/-- The driver's hard/soft test (main.rs:209):
`!check_anchors || !defined_links.contains(&href.without_anchor())`. -/
def driverHard404 (defined : List Str) (check : Bool) (h : Str) : Bool :=
  !check || !(decide (withoutAnchor h ∈ defined))

/-- Paragraph-map lookup (`paragraps_to_sourcefile.get`). -/
def lookupFp (pmap : List (Fp × List Str)) (fp : Fp) : Option (List Str) :=
  match pmap with
  | [] => none
  | (k, v) :: rest => if fp = k then some v else lookupFp rest fp

/-- The destinations one broken witness is routed to (main.rs:216-240):
when the witness carries a paragraph fingerprint present in the
paragraph map, every matching source file; otherwise its own HTML
path. -/
def routeTargets (pmap : List (Fp × List Str)) (u : UsedLink) : List Str :=
  match u.paragraph with
  | some fp =>
    match lookupFp pmap fp with
    | some srcs => srcs
    | none => [u.path]
  | none => [u.path]

/-- Record href `h` as a defect of destination file `p`
(main.rs:225-229, 235-239): into the `bad_links` group when hard, the
`bad_anchors` group when soft. -/
def pushDefect (rep : SMap (List Str × List Str)) (p : Str) (hard : Bool)
    (h : Str) : SMap (List Str × List Str) :=
  SMap.entryApply rep p ([], [])
    (fun ew => if hard then (ew.1 ++ [h], ew.2) else (ew.1, ew.2 ++ [h]))

/-- Route one witness of broken href `h` to all its destinations. -/
def routePush (pmap : List (Fp × List Str)) (hard : Bool) (h : Str)
    (rep : SMap (List Str × List Str)) (u : UsedLink) :
    SMap (List Str × List Str) :=
  (routeTargets pmap u).foldl (fun r p => pushDefect r p hard h) rep

/-- Classification of one `used_links` entry (main.rs:207-243): skip
defined hrefs; otherwise classify hard/soft, bump the matching counter
once per href, and route every witness. -/
def classifyStep (check : Bool) (defined : List Str)
    (pmap : List (Fp × List Str))
    (acc : SMap (List Str × List Str) × Nat × Nat)
    (entry : Str × List UsedLink) :
    SMap (List Str × List Str) × Nat × Nat :=
  if entry.1 ∈ defined then acc
  else
    let hard := driverHard404 defined check entry.1
    (entry.2.foldl (routePush pmap hard entry.1) acc.1,
      (if hard then acc.2.1 + 1 else acc.2.1),
      (if hard then acc.2.2 else acc.2.2 + 1))

/-- The full classification loop over `used_links`, producing
`bad_links_and_anchors` and the two counters. -/
def classifyAll (check : Bool) (defined : List Str)
    (pmap : List (Fp × List Str)) (used : SMap (List UsedLink)) :
    SMap (List Str × List Str) × Nat × Nat :=
  used.foldl (classifyStep check defined pmap) ([], 0, 0)

/-- One line of the emitted report (main.rs:245-280). -/
inductive OutLine where
  | header (p : Str)
  | errorLine (h : Str)
  | warningLine (h : Str)
  | ghBadLinks (p : Str) (hs : List Str)
  | ghBadAnchors (p : Str) (hs : List Str)
  | blank
deriving DecidableEq

/-- The per-file emission block (main.rs:246-279): header, every
`error: bad link` line, every `warning: bad anchor` line, the optional
GitHub-actions annotation lines, and a trailing blank line. -/
def emitFile (gh : Bool) (p : Str) (e w : List Str) : List OutLine :=
  OutLine.header p ::
    (e.map OutLine.errorLine ++ w.map OutLine.warningLine
      ++ (if gh && !e.isEmpty then [OutLine.ghBadLinks p e] else [])
      ++ (if gh && !w.isEmpty then [OutLine.ghBadAnchors p w] else [])
      ++ [OutLine.blank])

/-- The report emission loop (main.rs:245-280): destination files in map
iteration order. -/
def emitReport (gh : Bool) (rep : SMap (List Str × List Str)) :
    List OutLine :=
  (rep.map fun pev => emitFile gh pev.1 pev.2.1 pev.2.2).flatten

/-- The exit-code ladder (main.rs:294-302): 1 when any hard 404 was
counted, else 2 when any bad anchor was counted, else 0. -/
def exitCode (badLinksCount badAnchorsCount : Nat) : Nat :=
  if 0 < badLinksCount then 1 else if 0 < badAnchorsCount then 2 else 0

/-- A directory-walk entry as observed by discovery (main.rs:66-80). -/
structure DirEntry where
  path : Str
  isSymlink : Bool
  isFile : Bool
deriving DecidableEq

/-- The segment after the last `/` (byte 47) of a path. -/
def lastSegment (p : Str) : Str :=
  (p.reverse.takeWhile (fun b => b != 47)).reverse

/-- Modelled from the spec: the document-href derivation of
`Document::new` lives in the missing `src/html.rs`.  Per the spec
(`from_document`): strip the base path prefix, strip an `index.html`
filename so the directory serves as the href, and always prefix with `/`
(byte 47).  The bytes below spell `index.html`. -/
def documentHref (base p : Str) : Str :=
  let rel := p.drop base.length
  let rel2 :=
    if lastSegment rel = [105, 110, 100, 101, 120, 46, 104, 116, 109, 108]
    then rel.take (rel.length - (lastSegment rel).length)
    else rel
  if rel2.head? = some 47 then rel2 else 47 :: rel2

/-- `.html` / `.htm` extension test (main.rs:88-92); the bytes spell
`.html` and `.htm`. -/
def isHtmlPath (p : Str) : Bool :=
  [46, 104, 116, 109, 108].isSuffixOf p || [46, 104, 116, 109].isSuffixOf p

/-- The fatal discovery conditions (main.rs:71-76 and 84-86): an
unsupported symlink, or two files resolving to one href.  Both abort the
run with a message naming the offending path (the second via `panic!`). -/
inductive DiscoverError where
  | symlinkAt (p : Str)
  | duplicateHref (p : Str)
deriving DecidableEq

/-- The discovery walk (main.rs:61-95): entries in walk order; a symlink
aborts; non-files are skipped; each file's document href must not have
been claimed before (else abort); `.html`/`.htm` files are collected for
extraction. -/
def discover (base : Str) : List DirEntry → List Str → List Str →
    Except DiscoverError (List Str × List Str)
  | [], hrefs, docs => .ok (hrefs, docs)
  | e :: rest, hrefs, docs =>
    if e.isSymlink then .error (.symlinkAt e.path)
    else if !e.isFile then discover base rest hrefs docs
    else
      let d := documentHref base e.path
      if d ∈ hrefs then .error (.duplicateHref e.path)
      else
        discover base rest (hrefs ++ [d])
          (if isHtmlPath e.path then docs ++ [e.path] else docs)

/-- The driver end to end (main.rs:45-303) over pure inputs: the
directory entries seen by the walk, a per-document link extractor
(standing in for `Document::links` of the missing `src/html.rs`), and
the paragraph-to-source-file map built in phase 5.  Discovery errors
abort before any aggregation, classification or emission; otherwise the
defined set is the event defines extended with every discovered file
href (main.rs:142), and the result is the report lines plus the exit
code. -/
def pipelineAgg (docs : List Str) (linksOf : Str → List Link) :
    SMap (List UsedLink) × List Str :=
  driverAggregate ((docs.map linksOf).flatten)

/-- The merged defined set after phase 4 (main.rs:142): the event defines
extended with every discovered file href. -/
def pipelineDefined (fileHrefs docs : List Str)
    (linksOf : Str → List Link) : List Str :=
  fileHrefs.foldl setInsert (pipelineAgg docs linksOf).2

def runHyperlink (check gh : Bool) (base : Str) (entries : List DirEntry)
    (linksOf : Str → List Link) (pmap : List (Fp × List Str)) :
    Except DiscoverError (List OutLine × Nat) :=
  match discover base entries [] [] with
  | .error err => .error err
  | .ok (fileHrefs, docs) =>
    let res := classifyAll check (pipelineDefined fileHrefs docs linksOf)
      pmap (pipelineAgg docs linksOf).1
    .ok (emitReport gh res.1, exitCode res.2.1 res.2.2)

/-! ## SMap lemmas -/

/-- Strictly ascending key order: the `BTreeMap` representation
invariant. -/
abbrev SMap.Sorted (m : SMap ν) : Prop :=
  List.Pairwise (fun a b => a.1 < b.1) m

/-- `h` is recorded as a hard defect (`error: bad link`) of destination
file `p` in the report map. -/
def repErrMem (rep : SMap (List Str × List Str)) (p h : Str) : Prop :=
  ∃ ew, SMap.lookup rep p = some ew ∧ h ∈ ew.1

/-- `h` is recorded as a soft defect (`warning: bad anchor`) of
destination file `p` in the report map. -/
def repWarnMem (rep : SMap (List Str × List Str)) (p h : Str) : Prop :=
  ∃ ew, SMap.lookup rep p = some ew ∧ h ∈ ew.2

/-- Every href stored in any defect group is bounded by `b`. -/
def repBounded (rep : SMap (List Str × List Str)) (b : Str) : Prop :=
  ∀ pv ∈ rep, (∀ x ∈ pv.2.1, x ≤ b) ∧ (∀ x ∈ pv.2.2, x ≤ b)

/-- Every defect group (hard and soft separately) is in ascending href
order. -/
def repGroupsSorted (rep : SMap (List Str × List Str)) : Prop :=
  ∀ pv ∈ rep, List.Sorted (· ≤ ·) pv.2.1 ∧ List.Sorted (· ≤ ·) pv.2.2

/-- Every href stored in any group lies strictly below every key still to
be processed. -/
def repBelow (rep : SMap (List Str × List Str))
    (used : SMap (List UsedLink)) : Prop :=
  ∀ pv ∈ rep, ∀ ent ∈ used,
    (∀ x ∈ pv.2.1, x < ent.1) ∧ (∀ x ∈ pv.2.2, x < ent.1)

/-- Some walk entry is a symlink. -/
def HasSymlink (l : List DirEntry) : Prop :=
  ∃ e ∈ l, e.isSymlink = true

/-- Some regular file in the walk resolves to an href already claimed. -/
def HasSeen (base : Str) (l : List DirEntry) (hrefs : List Str) : Prop :=
  ∃ e ∈ l, e.isFile = true ∧ documentHref base e.path ∈ hrefs

/-- Two distinct regular files in the walk resolve to the same document
href. -/
def HasDupHref (base : Str) (l : List DirEntry) : Prop :=
  ∃ l1 e1 l2 e2 l3, l = l1 ++ e1 :: l2 ++ e2 :: l3
    ∧ e1.isFile = true ∧ e2.isFile = true
    ∧ documentHref base e1.path = documentHref base e2.path

/-- The dedup-set lookup `map.get(&*s)` (interner.rs:15): the index of
the first interned copy of `s`, if any. -/
def internLookup : List Str → Str → Option Nat
  | [], _ => none
  | t :: rest, s =>
    if t = s then some 0 else (internLookup rest s).map (· + 1)

/-- `StringInterner::intern_string` (interner.rs:13-31): return the
existing handle when `s` was interned before, else copy `s` into the
arena (`alloc_str`), record it in the set, and return the fresh
handle. -/
def internString (σ : List Str) (s : Str) : List Str × Nat :=
  match internLookup σ s with
  | some i => (σ, i)
  | none => (σ ++ [s], σ.length)

/-- Run a sequence of `intern_string` calls, returning the final
arena. -/
def internAll (σ : List Str) (l : List Str) : List Str :=
  l.foldl (fun σ2 s => (internString σ2 s).1) σ

/-- The handles returned by a sequence of `intern_string` calls. -/
def internHandles (σ : List Str) : List Str → List Nat
  | [] => []
  | s :: rest =>
    (internString σ s).2 :: internHandles (internString σ s).1 rest

/-! ## Interner lemmas -/

/-! ## Trie model (`src/trie.rs`)

`Trie<T>` (trie.rs:6-12): a value slot, a compressed byte label, and two
child maps (`lower_than`, `bigger_than`) keyed by the divergence
position.  The `BTreeMap<usize, Trie<T>>` children are embedded as
association lists (only keyed access is exercised by `get`/`insert`).
The common-prefix scan shared by `impl_get` (trie.rs:33-48) and `insert`
(trie.rs:66-75) is `trieScan`.  The `entry(k).or_insert_with(Trie::new)`
idiom becomes: fetch the child, or — when absent — build the closed form
of inserting into a fresh node (`Trie::new().insert` immediately takes
the label-absorption branch, leaving `⟨none, key, [], [(|key|,
value-node)]⟩`, or just a value node for the empty key). -/
inductive Trie (T : Type) where
  | mk (value : Option T) (label : List Nat)
      (lowerThan biggerThan : List (Nat × Trie T))

/-- `Trie::new` (trie.rs:55-57, via `Default`). -/
def Trie.new : Trie T := .mk none [] [] []

/-- The zip scan of key against label (trie.rs:33-42, 66-75): the length
of the common prefix within `min` of the lengths, and whether the first
mismatching key byte is smaller than the label byte (`false` when the
zip ends without mismatch). -/
def trieScan : List Nat → List Nat → Nat × Bool
  | a :: key, b :: label =>
    if a = b then
      ((trieScan key label).1 + 1, (trieScan key label).2)
    else (0, decide (a < b))
  | _, _ => (0, false)

/-- `BTreeMap::get` on a children map. -/
def childGet (children : List (Nat × Trie T)) (k : Nat) :
    Option (Trie T) :=
  match children with
  | [] => none
  | (k2, t) :: rest => if k = k2 then some t else childGet rest k

/-- Store a child back under its key (the write-back of the mutation
performed through `entry`). -/
def childSet (children : List (Nat × Trie T)) (k : Nat) (t : Trie T) :
    List (Nat × Trie T) :=
  match children with
  | [] => [(k, t)]
  | (k2, t2) :: rest =>
    if k = k2 then (k2, t) :: rest else (k2, t2) :: childSet rest k t

/-- The closed form of `Trie::new().insert(key, value)` — the fresh
child created by `or_insert_with(Trie::new)` after the inserted key has
been absorbed into its label. -/
def trieSingleton (key : List Nat) (v : T) : Trie T :=
  if key = [] then .mk (some v) [] [] []
  else .mk none key [] [(key.length, .mk (some v) [] [] [])]

/-- `Trie::get` (trie.rs:97-99 through `impl_get`, trie.rs:25-52):
empty key reads the value slot; otherwise scan against the label, pick
`lower_than`/`bigger_than` by the first mismatch direction, descend at
the divergence position with the key suffix. -/
def Trie.get [SizeOf T] : Trie T → List Nat → Option T
  | .mk value label lowerThan biggerThan, key =>
    if key = [] then value
    else
      let sc := trieScan key label
      let children := if sc.2 then lowerThan else biggerThan
      match h : childGet children sc.1 with
      | none => none
      | some child => child.get (key.drop sc.1)
termination_by t _ => sizeOf t
decreasing_by
  all_goals
    have haux : ∀ m : List (Nat × Trie T),
        childGet m sc.1 = some child → sizeOf child < sizeOf m := by
      intro m
      induction m with
      | nil => intro hx; cases hx
      | cons kt rest ih =>
        intro hx
        rw [childGet] at hx
        by_cases hk : sc.1 = kt.1
        · rw [if_pos hk] at hx
          cases hx
          obtain ⟨k2, t2⟩ := kt
          simp
          omega
        · rw [if_neg hk] at hx
          have := ih hx
          obtain ⟨k2, t2⟩ := kt
          simp
          omega
    have h1 := haux (if sc.2 then lowerThan else biggerThan) h
    have h2 : sizeOf (if sc.2 then lowerThan else biggerThan) ≤
        sizeOf lowerThan + sizeOf biggerThan := by
      rcases hb : sc.2 <;> simp [hb]
    simp
    omega

/-- `Trie::insert` (trie.rs:59-95): empty key replaces the value slot
and returns the previous value; when the scan consumes the whole label,
the label absorbs the key remainder and the value lands in a child at
position `key.length`; otherwise descend (or create) the child at the
divergence position with the key suffix. -/
def Trie.insert [SizeOf T] : Trie T → List Nat → T → Trie T × Option T
  | .mk value label lowerThan biggerThan, key, v =>
    if key = [] then (.mk (some v) label lowerThan biggerThan, value)
    else
      let sc := trieScan key label
      if sc.1 = label.length then
        let newLabel := label ++ key.drop sc.1
        let children := if sc.2 then lowerThan else biggerThan
        match childGet children key.length with
        | some (.mk cv cl clo cbi) =>
          (if sc.2 then
            .mk value newLabel
              (childSet lowerThan key.length (.mk (some v) cl clo cbi))
              biggerThan
          else
            .mk value newLabel lowerThan
              (childSet biggerThan key.length (.mk (some v) cl clo cbi)),
          cv)
        | none =>
          (if sc.2 then
            .mk value newLabel
              (childSet lowerThan key.length (.mk (some v) [] [] []))
              biggerThan
          else
            .mk value newLabel lowerThan
              (childSet biggerThan key.length (.mk (some v) [] [] [])),
          none)
      else
        let nextKey := key.drop sc.1
        let children := if sc.2 then lowerThan else biggerThan
        match h : childGet children sc.1 with
        | some child =>
          (if sc.2 then
            .mk value label
              (childSet lowerThan sc.1 (child.insert nextKey v).1)
              biggerThan
          else
            .mk value label lowerThan
              (childSet biggerThan sc.1 (child.insert nextKey v).1),
          (child.insert nextKey v).2)
        | none =>
          (if sc.2 then
            .mk value label (childSet lowerThan sc.1 (trieSingleton nextKey v))
              biggerThan
          else
            .mk value label lowerThan
              (childSet biggerThan sc.1 (trieSingleton nextKey v)),
          none)
termination_by t _ _ => sizeOf t
decreasing_by
  all_goals
    have haux : ∀ m : List (Nat × Trie T),
        childGet m sc.1 = some child → sizeOf child < sizeOf m := by
      intro m
      induction m with
      | nil => intro hx; cases hx
      | cons kt rest ih =>
        intro hx
        rw [childGet] at hx
        by_cases hk : sc.1 = kt.1
        · rw [if_pos hk] at hx
          cases hx
          obtain ⟨k2, t2⟩ := kt
          simp
          omega
        · rw [if_neg hk] at hx
          have := ih hx
          obtain ⟨k2, t2⟩ := kt
          simp
          omega
    have h1 := haux (if sc.2 then lowerThan else biggerThan) h
    have h2 : sizeOf (if sc.2 then lowerThan else biggerThan) ≤
        sizeOf lowerThan + sizeOf biggerThan := by
      rcases hb : sc.2 <;> simp [hb]
    simp
    omega

/-! ## Trie lemmas -/

/-- A pure value node: empty label, no children (the shape of every
child stored at the label-length position of `bigger_than`). -/
def TriePure : Trie T → Prop
  | .mk _ label lowerThan biggerThan =>
    label = [] ∧ lowerThan = [] ∧ biggerThan = []

/-- The representation invariant of tries reachable from `Trie::new` by
`insert`: `lower_than` children sit strictly inside the label (they are
created by byte mismatches), `bigger_than` children sit at positions up
to the label length, and the child at exactly the label length is a pure
value node (it holds the value of the key equal to the whole label). -/
inductive TrieInv : Trie T → Prop where
  | mk {value : Option T} {label : List Nat}
      {lowerThan biggerThan : List (Nat × Trie T)}
      (hloK : ∀ kc ∈ lowerThan, kc.1 < label.length)
      (hbiK : ∀ kc ∈ biggerThan, kc.1 ≤ label.length)
      (hpure : ∀ c : Trie T, (label.length, c) ∈ biggerThan → TriePure c)
      (hloI : ∀ kc ∈ lowerThan, TrieInv kc.2)
      (hbiI : ∀ kc ∈ biggerThan, TrieInv kc.2) :
      TrieInv (.mk value label lowerThan biggerThan)

/-- A finite sequence of `insert` operations applied to `Trie::new()`. -/
def buildTrie [SizeOf T] (ops : List (List Nat × T)) : Trie T :=
  ops.foldl (fun t kv => (t.insert kv.1 kv.2).1) Trie.new

/-- The value of the most recent operation with key `k`, if any. -/
def opsLookup (ops : List (List Nat × T)) (k : List Nat) : Option T :=
  ops.foldl (fun acc kv => if kv.1 = k then some kv.2 else acc) none

theorem semMerge_none_right (s : Option SemState) : semMerge s none = s := by
  rcases s with _ | (_ | ws) <;> rfl

theorem semMerge_none_left (s : Option SemState) : semMerge none s = s := by
  rcases s with _ | (_ | ws) <;> rfl

theorem semMerge_assoc (a b c : Option SemState) :
    semMerge (semMerge a b) c = semMerge a (semMerge b c) := by
  rcases a with _ | (_ | wa) <;> rcases b with _ | (_ | wb) <;>
    rcases c with _ | (_ | wc) <;> simp [semMerge, add_assoc]

theorem usesOf_append (l1 l2 : List Link) (h : Str) :
    usesOf (l1 ++ l2) h = usesOf l1 h ++ usesOf l2 h := by
  simp [usesOf, List.filterMap_append]

theorem usesOf_defines (d : DefinedLink) (h : Str) :
    usesOf [.defines d] h = [] := rfl

theorem usesOf_uses (u : UsedLink) (h : Str) :
    usesOf [.uses u] h =
      if u.href = h then [(u.path, u.paragraph)] else [] := by
  by_cases hu : u.href = h <;> simp [usesOf, hu]

theorem defines_mem_singleton (d : DefinedLink) (h : Str) :
    Link.defines ⟨h⟩ ∈ [Link.defines d] ↔ h = d.href := by
  cases d; simp

theorem canonical_append (l1 l2 : List Link) (h : Str) :
    canonical (l1 ++ l2) h = semMerge (canonical l1 h) (canonical l2 h) := by
  by_cases d1 : Link.defines ⟨h⟩ ∈ l1 <;>
    by_cases d2 : Link.defines ⟨h⟩ ∈ l2 <;>
      by_cases u1 : usesOf l1 h = [] <;>
        by_cases u2 : usesOf l2 h = [] <;>
          simp [canonical, d1, d2, u1, u2, usesOf_append, semMerge]

theorem merge_links_sem (c d : BrokenLinkCollector) (h : Str) :
    stateSem ((c.merge d).links h) =
      semMerge (stateSem (c.links h)) (stateSem (d.links h)) := by
  rcases hd : d.links h with _ | (_ | wd) <;>
    rcases hc : c.links h with _ | (_ | wc) <;>
      simp [BrokenLinkCollector.merge, hc, hd, stateSem, semMerge,
        LinkState.update]

theorem ingestAll_append (c : BrokenLinkCollector) (l1 l2 : List Link) :
    c.ingestAll (l1 ++ l2) = (c.ingestAll l1).ingestAll l2 := by
  simp [BrokenLinkCollector.ingestAll, List.foldl_append]

/-- Sequential characterization of a single worker's collector: after
ingesting a stream, an href is `Defined` iff the stream defines it,
otherwise `Undefined` with all use witnesses in stream order, otherwise
absent. -/
theorem ingestAll_char (l : List Link) (h : Str) :
    (BrokenLinkCollector.new.ingestAll l).links h =
      if Link.defines ⟨h⟩ ∈ l then some .defined
      else if usesOf l h = [] then none
      else some (.undefined (usesOf l h)) := by
  induction l using List.reverseRecOn with
  | nil => simp [BrokenLinkCollector.ingestAll, BrokenLinkCollector.new,
      canonical, usesOf]
  | append_singleton l e ih =>
    rw [ingestAll_append]
    have hstep : (BrokenLinkCollector.new.ingestAll l).ingestAll [e] =
        (BrokenLinkCollector.new.ingestAll l).ingest e := rfl
    rw [hstep]
    cases e with
    | defines d =>
      by_cases hd : h = d.href
      · subst hd
        simp [BrokenLinkCollector.ingest, List.mem_append,
          defines_mem_singleton, usesOf_append, usesOf_defines]
      · have hmem : Link.defines ⟨h⟩ ∈ l ++ [Link.defines d] ↔
            Link.defines ⟨h⟩ ∈ l := by
          rw [List.mem_append, defines_mem_singleton]
          exact ⟨fun hc => hc.elim id (fun hh => absurd hh hd), Or.inl⟩
        simp [BrokenLinkCollector.ingest, hd, hmem, usesOf_append,
          usesOf_defines, ih]
    | uses u =>
      have hmem : Link.defines ⟨h⟩ ∈ l ++ [Link.uses u] ↔
          Link.defines ⟨h⟩ ∈ l := by simp
      by_cases hu : h = u.href
      · subst hu
        by_cases hdl : Link.defines ⟨u.href⟩ ∈ l
        · have hx : (BrokenLinkCollector.new.ingestAll l).links u.href =
              some .defined := by rw [ih]; simp [hdl]
          simp [BrokenLinkCollector.ingest, hx, hmem, hdl, LinkState.addUsage]
        · by_cases hul : usesOf l u.href = []
          · have hx : (BrokenLinkCollector.new.ingestAll l).links u.href =
                none := by rw [ih]; simp [hdl, hul]
            simp [BrokenLinkCollector.ingest, hx, hmem, hdl, hul,
              LinkState.addUsage, usesOf_append, usesOf_uses]
          · have hx : (BrokenLinkCollector.new.ingestAll l).links u.href =
                some (.undefined (usesOf l u.href)) := by
              rw [ih]; simp [hdl, hul]
            simp [BrokenLinkCollector.ingest, hx, hmem, hdl, hul,
              LinkState.addUsage, usesOf_append, usesOf_uses]
      · have hu2 : ¬ (u.href = h) := fun hh => hu hh.symm
        simp [BrokenLinkCollector.ingest, hu, hu2, hmem, usesOf_append,
          usesOf_uses, ih]

theorem leaf_sem (l : List Link) (h : Str) :
    stateSem ((BrokenLinkCollector.new.ingestAll l).links h) =
      canonical l h := by
  rw [ingestAll_char]
  by_cases hd : Link.defines ⟨h⟩ ∈ l <;>
    by_cases hu : usesOf l h = [] <;>
      simp [canonical, hd, hu, stateSem]

/-- Any merge tree computes the canonical per-href state of its combined
event stream. -/
theorem tree_run_sem (t : MTree) (h : Str) :
    stateSem (t.run.links h) = canonical t.events h := by
  induction t with
  | leaf l => exact leaf_sem l h
  | node t1 t2 ih1 ih2 =>
    rw [MTree.run, MTree.events, merge_links_sem, ih1, ih2, canonical_append]

/-- The canonical state only depends on the multiset of events. -/
theorem canonical_perm {l1 l2 : List Link} (hp : l1.Perm l2) (h : Str) :
    canonical l1 h = canonical l2 h := by
  have hmem : (Link.defines ⟨h⟩ ∈ l1) ↔ (Link.defines ⟨h⟩ ∈ l2) := hp.mem_iff
  have huse : (usesOf l1 h).Perm (usesOf l2 h) := hp.filterMap _
  have hnil : (usesOf l1 h = []) ↔ (usesOf l2 h = []) := by
    constructor
    · intro hh; rw [hh] at huse; exact huse.nil_eq.symm
    · intro hh; rw [hh] at huse; exact (huse.symm).nil_eq.symm
  have hcoe : (↑(usesOf l1 h) : Multiset (Str × Option Fp)) = ↑(usesOf l2 h) :=
    Multiset.coe_eq_coe.mpr huse
  by_cases hd : Link.defines ⟨h⟩ ∈ l1
  · simp [canonical, hd, hmem.mp hd]
  · have hd2 : Link.defines ⟨h⟩ ∉ l2 := fun hh => hd (hmem.mpr hh)
    by_cases hu : usesOf l1 h = []
    · simp [canonical, hd, hd2, hu, hnil.mp hu]
    · have hu2 : ¬ usesOf l2 h = [] := fun hh => hu (hnil.mpr hh)
      simp [canonical, hd, hd2, hu, hu2, hcoe]

/-! ## Claims C1-C3 -/

/-- C1.  For any finite multiset of link events, ingesting them into
`BrokenLinkCollector` instances in any order and under any partitioning
across collectors, then merging the collectors in any grouping and order,
yields the same final per-href state: for every href the resulting
Defined/Undefined state, and the multiset of `(path, paragraph)`
witnesses when Undefined, is independent of event order and of how
events are partitioned across workers.  Two merge trees with permuted
event streams produce identical per-href semantic states. -/
theorem collector_state_order_and_partition_independent
    (t1 t2 : MTree) (hp : t1.events.Perm t2.events) (h : Str) :
    stateSem (t1.run.links h) = stateSem (t2.run.links h) := by
  rw [tree_run_sem, tree_run_sem, canonical_perm hp]

theorem collector_state_order_and_partition_independent_witness :
    (MTree.node (.leaf [Link.defines ⟨[47, 97]⟩])
        (.leaf [Link.uses ⟨[47, 97], [102], none⟩])).events.Perm
      (MTree.leaf [Link.uses ⟨[47, 97], [102], none⟩,
        Link.defines ⟨[47, 97]⟩]).events
    ∧ stateSem ((MTree.node (.leaf [Link.defines ⟨[47, 97]⟩])
        (.leaf [Link.uses ⟨[47, 97], [102], none⟩])).run.links [47, 97]) =
      stateSem ((MTree.leaf [Link.uses ⟨[47, 97], [102], none⟩,
        Link.defines ⟨[47, 97]⟩]).run.links [47, 97]) :=
  ⟨by decide,
    collector_state_order_and_partition_independent _ _ (by decide) _⟩

/-- C2.  If any `Defines(h)` occurs anywhere in the combined stream of
ingest and merge operations, the final state for `h` is `Defined`; once a
collector maps `h` to `Defined`, no subsequent `ingest` or `merge` (on
either side) returns `h` to `Undefined`, and no witness for `h` is ever
reported by `get_broken_links`. -/
theorem define_dominance (t : MTree) (c d : BrokenLinkCollector) (e : Link)
    (check : Bool) (h : Str)
    (hmem : Link.defines ⟨h⟩ ∈ t.events)
    (hdef : c.links h = some LinkState.defined) :
    t.run.links h = some .defined
    ∧ (c.ingest e).links h = some .defined
    ∧ (c.merge d).links h = some .defined
    ∧ (d.merge c).links h = some .defined
    ∧ c.brokenLinksOf check h = [] := by
  have h1 : t.run.links h = some .defined := by
    have hts := tree_run_sem t h
    rw [canonical, if_pos hmem] at hts
    rcases hx : t.run.links h with _ | s
    · rw [hx] at hts; exact absurd hts (by simp [stateSem])
    · cases s with
      | defined => rfl
      | undefined ws => rw [hx] at hts; exact absurd hts (by simp [stateSem])
  have h2 : (c.ingest e).links h = some .defined := by
    cases e with
    | uses u =>
      by_cases hh : h = u.href
      · subst hh; simp [BrokenLinkCollector.ingest, hdef, LinkState.addUsage]
      · simp [BrokenLinkCollector.ingest, hh, hdef]
    | defines dl =>
      by_cases hh : h = dl.href <;>
        simp [BrokenLinkCollector.ingest, hh, hdef]
  have h3 : (c.merge d).links h = some .defined := by
    rcases hd2 : d.links h with _ | s
    · simp [BrokenLinkCollector.merge, hd2, hdef]
    · cases s <;>
        simp [BrokenLinkCollector.merge, hd2, hdef, LinkState.update]
  have h4 : (d.merge c).links h = some .defined := by
    rcases hd2 : d.links h with _ | s
    · simp [BrokenLinkCollector.merge, hd2, hdef]
    · cases s <;>
        simp [BrokenLinkCollector.merge, hd2, hdef, LinkState.update]
  have h5 : c.brokenLinksOf check h = [] := by
    simp [BrokenLinkCollector.brokenLinksOf, hdef]
  exact ⟨h1, h2, h3, h4, h5⟩

theorem define_dominance_witness :
    (Link.defines ⟨[47, 97]⟩ ∈
      (MTree.leaf [Link.defines ⟨[47, 97]⟩]).events)
    ∧ ((BrokenLinkCollector.new.ingest
        (Link.defines ⟨[47, 97]⟩)).links [47, 97] = some LinkState.defined)
    ∧ ((MTree.leaf [Link.defines ⟨[47, 97]⟩]).run.links [47, 97] =
        some .defined
      ∧ ((BrokenLinkCollector.new.ingest (Link.defines ⟨[47, 97]⟩)).ingest
          (Link.uses ⟨[47, 97], [102], none⟩)).links [47, 97] =
        some .defined
      ∧ ((BrokenLinkCollector.new.ingest
          (Link.defines ⟨[47, 97]⟩)).merge BrokenLinkCollector.new).links
            [47, 97] = some .defined
      ∧ (BrokenLinkCollector.new.merge (BrokenLinkCollector.new.ingest
          (Link.defines ⟨[47, 97]⟩))).links [47, 97] = some .defined
      ∧ (BrokenLinkCollector.new.ingest
          (Link.defines ⟨[47, 97]⟩)).brokenLinksOf true [47, 97] = []) :=
  ⟨by decide, rfl,
    define_dominance (MTree.leaf [Link.defines ⟨[47, 97]⟩])
      (BrokenLinkCollector.new.ingest (Link.defines ⟨[47, 97]⟩))
      BrokenLinkCollector.new (Link.uses ⟨[47, 97], [102], none⟩) true
      [47, 97] (by decide) rfl⟩

/-- C3.  For every href whose final state is `Undefined` (a broken link):
with `check_anchors = false` every `BrokenLink` yielded for it is hard;
with `check_anchors = true` a yielded `BrokenLink` is soft iff
`without_anchor(h)` differs from `h` and the index maps
`without_anchor(h)` to `Defined`, and hard otherwise. -/
theorem anchor_classification (c : BrokenLinkCollector) (h : Str)
    (ws : List (Str × Option Fp))
    (hb : c.links h = some (.undefined ws)) :
    (∀ bl ∈ c.brokenLinksOf false h, bl.hard404 = true)
    ∧ (∀ bl ∈ c.brokenLinksOf true h,
        (bl.hard404 = false ↔
          (withoutAnchor h ≠ h
            ∧ c.links (withoutAnchor h) = some LinkState.defined))) := by
  constructor
  · intro bl hbl
    rw [BrokenLinkCollector.brokenLinksOf, hb] at hbl
    obtain ⟨pw, _, rfl⟩ := List.mem_map.mp hbl
    rfl
  · intro bl hbl
    rw [BrokenLinkCollector.brokenLinksOf, hb] at hbl
    obtain ⟨pw, _, rfl⟩ := List.mem_map.mp hbl
    show c.hard404Of true h = false ↔ _
    rw [BrokenLinkCollector.hard404Of, if_pos rfl]
    constructor
    · intro hx
      have heq : c.links (withoutAnchor h) = some LinkState.defined := by
        by_contra hne
        simp [hne] at hx
      refine ⟨?_, heq⟩
      intro hwa
      rw [hwa, hb] at heq
      cases heq
    · rintro ⟨-, heq⟩
      simp [heq]

theorem anchor_classification_witness :
    ((BrokenLinkCollector.new.ingestAll
        [Link.uses ⟨[47, 97, 35, 120], [102], none⟩,
          Link.defines ⟨[47, 97]⟩]).links [47, 97, 35, 120] =
      some (.undefined [([102], none)]))
    ∧ ((∀ bl ∈ (BrokenLinkCollector.new.ingestAll
          [Link.uses ⟨[47, 97, 35, 120], [102], none⟩,
            Link.defines ⟨[47, 97]⟩]).brokenLinksOf false [47, 97, 35, 120],
        bl.hard404 = true)
      ∧ (∀ bl ∈ (BrokenLinkCollector.new.ingestAll
          [Link.uses ⟨[47, 97, 35, 120], [102], none⟩,
            Link.defines ⟨[47, 97]⟩]).brokenLinksOf true [47, 97, 35, 120],
        (bl.hard404 = false ↔
          (withoutAnchor [47, 97, 35, 120] ≠ [47, 97, 35, 120]
            ∧ (BrokenLinkCollector.new.ingestAll
                [Link.uses ⟨[47, 97, 35, 120], [102], none⟩,
                  Link.defines ⟨[47, 97]⟩]).links
                (withoutAnchor [47, 97, 35, 120]) =
              some LinkState.defined)))) :=
  ⟨rfl,
    anchor_classification
      (BrokenLinkCollector.new.ingestAll
        [Link.uses ⟨[47, 97, 35, 120], [102], none⟩,
          Link.defines ⟨[47, 97]⟩])
      [47, 97, 35, 120] [([102], none)] rfl⟩

/-! ## Driver model (`src/main.rs`)

The driver never uses `BrokenLinkCollector`: it aggregates link events
into a `BTreeMap<Href, Vec<UsedLink>>` and a `BTreeSet<Href>`
(main.rs:103-142), classifies and routes defects (main.rs:202-243), and
emits the report (main.rs:245-280).  `BTreeMap`s over byte strings are
embedded as association lists kept sorted by strictly ascending key; the
`BTreeSet` of defined hrefs is embedded as a duplicate-free list, only
its membership being consumed. -/

theorem SMap.lookup_eq_none (m : SMap ν) (k : Str)
    (h : ∀ pv ∈ m, k ≠ pv.1) : SMap.lookup m k = none := by
  induction m with
  | nil => rfl
  | cons pv rest ih =>
    have hne : k ≠ pv.1 := h pv (by simp)
    rw [SMap.lookup]
    simp only [hne, if_false]
    exact ih fun pv2 hpv2 => h pv2 (List.mem_cons_of_mem _ hpv2)

theorem SMap.entryApply_mem (m : SMap ν) (k : Str) (dflt : ν) (f : ν → ν) :
    ∀ pv ∈ SMap.entryApply m k dflt f,
      pv ∈ m ∨ ∃ v0, (v0 = dflt ∨ (k, v0) ∈ m) ∧ pv = (k, f v0) := by
  induction m with
  | nil =>
    intro pv hpv
    rw [SMap.entryApply] at hpv
    right
    exact ⟨dflt, Or.inl rfl, List.mem_singleton.mp hpv⟩
  | cons hd rest ih =>
    intro pv hpv
    rw [SMap.entryApply] at hpv
    by_cases he : k = hd.1
    · simp only [he, if_true] at hpv
      rcases List.mem_cons.mp hpv with rfl | hmem
      · right
        exact ⟨hd.2, Or.inr (by rw [he]; simp), by rw [he]⟩
      · left; exact List.mem_cons_of_mem _ hmem
    · simp only [he, if_false] at hpv
      by_cases hlt : k < hd.1
      · simp only [hlt, if_true] at hpv
        rcases List.mem_cons.mp hpv with rfl | hmem
        · right; exact ⟨dflt, Or.inl rfl, rfl⟩
        · left; exact hmem
      · simp only [hlt, if_false] at hpv
        rcases List.mem_cons.mp hpv with rfl | hmem
        · left; simp
        · rcases ih pv hmem with hin | ⟨v0, hv0, heq⟩
          · left; exact List.mem_cons_of_mem _ hin
          · right
            refine ⟨v0, ?_, heq⟩
            rcases hv0 with h1 | h2
            · exact Or.inl h1
            · exact Or.inr (List.mem_cons_of_mem _ h2)

theorem SMap.entryApply_sorted (m : SMap ν) (k : Str) (dflt : ν)
    (f : ν → ν) (hs : SMap.Sorted m) :
    SMap.Sorted (SMap.entryApply m k dflt f) := by
  induction m with
  | nil => simp [SMap.entryApply]
  | cons hd rest ih =>
    obtain ⟨hall, hrest⟩ := List.pairwise_cons.mp hs
    by_cases he : k = hd.1
    · rw [SMap.entryApply]
      simp only [he, if_true]
      exact List.pairwise_cons.mpr ⟨hall, hrest⟩
    · by_cases hlt : k < hd.1
      · rw [SMap.entryApply]
        simp only [he, if_true, hlt, if_false]
        refine List.pairwise_cons.mpr ⟨?_, ?_⟩
        · intro pv hpv
          rcases List.mem_cons.mp hpv with rfl | hmem
          · exact hlt
          · exact lt_trans hlt (hall pv hmem)
        · exact List.pairwise_cons.mpr ⟨hall, hrest⟩
      · have hgt : hd.1 < k := by
          rcases lt_trichotomy k hd.1 with h1 | h2 | h3
          · exact absurd h1 hlt
          · exact absurd h2 he
          · exact h3
        rw [SMap.entryApply]
        simp only [he, hlt, if_false]
        refine List.pairwise_cons.mpr ⟨?_, ?_⟩
        · intro pv hpv
          rcases SMap.entryApply_mem rest k dflt f pv hpv with hin |
              ⟨v0, _, rfl⟩
          · exact hall pv hin
          · exact hgt
        · exact ih hrest

theorem SMap.lookup_entryApply (m : SMap ν) (k k2 : Str) (dflt : ν)
    (f : ν → ν) (hs : SMap.Sorted m) :
    SMap.lookup (SMap.entryApply m k dflt f) k2 =
      if k2 = k then some (f ((SMap.lookup m k).getD dflt))
      else SMap.lookup m k2 := by
  induction m with
  | nil =>
    rw [SMap.entryApply]
    by_cases he : k2 = k <;> simp [SMap.lookup, he]
  | cons hd rest ih =>
    obtain ⟨hall, hrest⟩ := List.pairwise_cons.mp hs
    by_cases he : k = hd.1
    · rw [SMap.entryApply]
      simp only [he, if_true]
      by_cases h2 : k2 = k
      · subst h2
        rw [SMap.lookup]
        simp [he, SMap.lookup]
      · rw [SMap.lookup]
        have h2h : ¬ (k2 = hd.1) := by rw [← he]; exact h2
        simp only [h2h, if_false, h2, if_false]
        rw [SMap.lookup]
        simp only [h2h, if_false]
    · by_cases hlt : k < hd.1
      · rw [SMap.entryApply]
        simp only [he, hlt, if_true, if_false]
        by_cases h2 : k2 = k
        · subst h2
          rw [SMap.lookup]
          simp only [if_true]
          have hnone : SMap.lookup ((hd :: rest) : SMap ν) k2 = none := by
            apply SMap.lookup_eq_none
            intro pv hpv
            rcases List.mem_cons.mp hpv with rfl | hmem
            · exact fun hh => he hh
            · exact ne_of_lt (lt_trans hlt (hall pv hmem))
          rw [hnone]
          rfl
        · rw [SMap.lookup]
          simp only [h2, if_false]
      · rw [SMap.entryApply]
        simp only [he, hlt, if_false]
        by_cases h2 : k2 = hd.1
        · have h2k : ¬ (k2 = k) := by rw [h2]; exact fun hh => he hh.symm
          rw [SMap.lookup]
          rw [if_pos h2, if_neg h2k]
          rw [SMap.lookup, if_pos h2]
        · rw [SMap.lookup]
          rw [if_neg h2]
          rw [ih hrest]
          by_cases h3 : k2 = k
          · rw [if_pos h3, if_pos h3]
            rw [SMap.lookup, if_neg (fun hh => he hh)]
          · rw [if_neg h3, if_neg h3]
            rw [SMap.lookup, if_neg h2]

/-! ## Driver aggregation lemmas -/

theorem setInsert_mem (s : List Str) (x y : Str) :
    y ∈ setInsert s x ↔ y ∈ s ∨ y = x := by
  rw [setInsert]
  by_cases hx : x ∈ s
  · simp only [hx, if_true]
    constructor
    · exact Or.inl
    · rintro (h | rfl)
      · exact h
      · exact hx
  · simp [hx]

theorem driverStep_uses (acc : SMap (List UsedLink) × List Str)
    (u : UsedLink) :
    driverStep acc (.uses u) =
      (SMap.entryApply acc.1 u.href [] (fun v => v ++ [u]), acc.2) := rfl

theorem driverStep_defines (acc : SMap (List UsedLink) × List Str)
    (d : DefinedLink) :
    driverStep acc (.defines d) = (acc.1, setInsert acc.2 d.href) := rfl

theorem driverAggregate_append (l : List Link) (e : Link) :
    driverAggregate (l ++ [e]) = driverStep (driverAggregate l) e := by
  simp [driverAggregate, List.foldl_append]

theorem driverAggregate_sorted_aux (l : List Link) :
    ∀ acc : SMap (List UsedLink) × List Str,
    SMap.Sorted acc.1 → SMap.Sorted (l.foldl driverStep acc).1 := by
  induction l with
  | nil => intro acc h; exact h
  | cons e rest ih =>
    intro acc h
    rw [List.foldl_cons]
    apply ih
    cases e with
    | uses u => exact SMap.entryApply_sorted _ _ _ _ h
    | defines d => exact h

theorem driverAggregate_sorted (l : List Link) :
    SMap.Sorted (driverAggregate l).1 :=
  driverAggregate_sorted_aux l ([], []) List.Pairwise.nil

theorem usesFull_append (l1 l2 : List Link) (h : Str) :
    usesFull (l1 ++ l2) h = usesFull l1 h ++ usesFull l2 h := by
  simp [usesFull, List.filterMap_append]

/-- The defined set of the driver contains exactly the defined hrefs of
the stream. -/
theorem driver_defined_char (l : List Link) (h : Str) :
    h ∈ (driverAggregate l).2 ↔ Link.defines ⟨h⟩ ∈ l := by
  induction l using List.reverseRecOn with
  | nil => simp [driverAggregate]
  | append_singleton l e ih =>
    rw [driverAggregate_append]
    cases e with
    | uses u =>
      rw [driverStep_uses]
      have hmem : Link.defines ⟨h⟩ ∈ l ++ [Link.uses u] ↔
          Link.defines ⟨h⟩ ∈ l := by simp
      rw [hmem]
      exact ih
    | defines d =>
      rw [driverStep_defines]
      show h ∈ setInsert (driverAggregate l).2 d.href ↔ _
      rw [setInsert_mem, ih]
      rw [List.mem_append]
      have : Link.defines ⟨h⟩ ∈ [Link.defines d] ↔ h = d.href :=
        defines_mem_singleton d h
      rw [this]

/-- The `used_links` map of the driver maps each href to all its full
`UsedLink` records in stream order. -/
theorem driver_used_char (l : List Link) (h : Str) :
    SMap.lookup (driverAggregate l).1 h =
      if usesFull l h = [] then none else some (usesFull l h) := by
  induction l using List.reverseRecOn with
  | nil => simp [driverAggregate, SMap.lookup, usesFull]
  | append_singleton l e ih =>
    rw [driverAggregate_append]
    cases e with
    | defines d =>
      rw [driverStep_defines]
      have hus : usesFull (l ++ [Link.defines d]) h = usesFull l h := by
        rw [usesFull_append]
        simp [usesFull]
      rw [hus]
      exact ih
    | uses u =>
      rw [driverStep_uses]
      show SMap.lookup
          (SMap.entryApply (driverAggregate l).1 u.href []
            (fun v => v ++ [u])) h = _
      rw [SMap.lookup_entryApply _ _ _ _ _ (driverAggregate_sorted l)]
      rw [usesFull_append]
      by_cases hu : h = u.href
      · subst hu
        rw [if_pos rfl, ih]
        have husel : usesFull [Link.uses u] u.href = [u] := by
          simp [usesFull]
        rw [husel]
        by_cases hnil : usesFull l u.href = []
        · rw [if_pos hnil, hnil]
          simp
        · rw [if_neg hnil]
          have hne : ¬ (usesFull l u.href ++ [u] = []) := by simp
          rw [if_neg hne]
          simp
      · rw [if_neg hu, ih]
        have husel : usesFull [Link.uses u] h = [] := by
          have hne : ¬ (u.href = h) := fun hh => hu hh.symm
          simp [usesFull, hne]
        rw [husel, List.append_nil]

theorem usesOf_eq_map (l : List Link) (h : Str) :
    usesOf l h = (usesFull l h).map (fun u => (u.path, u.paragraph)) := by
  induction l with
  | nil => rfl
  | cons e rest ih =>
    have h1 : (e :: rest) = [e] ++ rest := rfl
    rw [h1, usesOf_append, usesFull_append, List.map_append, ih]
    congr 1
    cases e with
    | uses u =>
      by_cases hu : u.href = h
      · simp [usesOf, usesFull, hu]
      · simp [usesOf, usesFull, hu]
    | defines d => simp [usesOf, usesFull]

theorem usesFull_href (l : List Link) (h : Str) :
    ∀ u ∈ usesFull l h, u.href = h := by
  intro u hu
  obtain ⟨e, _, hfe⟩ := List.mem_filterMap.mp hu
  cases e with
  | uses u0 =>
    by_cases h0 : u0.href = h
    · simp only [h0, if_pos] at hfe
      rw [← Option.some_inj.mp hfe]
      exact h0
    · simp [h0] at hfe
  | defines d => simp at hfe

/-- C8.  The driver's aggregation (a `BTreeMap` of used hrefs with full
witnesses, a `BTreeSet` of defined hrefs, broken iff used and not
defined, hard/soft per main.rs:209) matches ingesting the same event
stream into a `BrokenLinkCollector` and calling `get_broken_links` with
the same `check_anchors` flag: the same broken hrefs, the same hard/soft
classification, and the same witnesses in the same order. -/
theorem driver_collector_equivalence (events : List Link) (check : Bool)
    (h : Str) :
    ((∃ lst, SMap.lookup (driverAggregate events).1 h = some lst)
        ∧ h ∉ (driverAggregate events).2
      ↔ (∃ ws, (BrokenLinkCollector.new.ingestAll events).links h =
          some (.undefined ws)))
    ∧ (driverHard404 (driverAggregate events).2 check h =
        (BrokenLinkCollector.new.ingestAll events).hard404Of check h)
    ∧ (∀ lst, SMap.lookup (driverAggregate events).1 h = some lst →
        h ∉ (driverAggregate events).2 →
        (BrokenLinkCollector.new.ingestAll events).brokenLinksOf check h =
          lst.map (fun u =>
            { hard404 := driverHard404 (driverAggregate events).2 check h
              link := u })) := by
  have hpart2 : driverHard404 (driverAggregate events).2 check h =
      (BrokenLinkCollector.new.ingestAll events).hard404Of check h := by
    rw [driverHard404, BrokenLinkCollector.hard404Of]
    cases check with
    | false => rfl
    | true =>
      have hiff : ((BrokenLinkCollector.new.ingestAll events).links
            (withoutAnchor h) = some LinkState.defined) ↔
          withoutAnchor h ∈ (driverAggregate events).2 := by
        rw [ingestAll_char, driver_defined_char]
        by_cases hdw : Link.defines ⟨withoutAnchor h⟩ ∈ events
        · simp [hdw]
        · by_cases huw : usesOf events (withoutAnchor h) = [] <;>
            simp [hdw, huw]
      simp only [Bool.not_true, Bool.false_or, if_pos]
      rw [decide_eq_decide.mpr hiff]
  refine ⟨?_, hpart2, ?_⟩
  · constructor
    · rintro ⟨⟨lst, hlst⟩, hnd⟩
      have hdl : ¬ (Link.defines ⟨h⟩ ∈ events) := by
        rw [← driver_defined_char]; exact hnd
      have hune : ¬ (usesFull events h = []) := by
        intro hnil
        rw [driver_used_char, if_pos hnil] at hlst
        cases hlst
      have huo : ¬ (usesOf events h = []) := by
        rw [usesOf_eq_map]
        simp [hune]
      refine ⟨usesOf events h, ?_⟩
      rw [ingestAll_char, if_neg hdl, if_neg huo]
    · rintro ⟨ws, hws⟩
      rw [ingestAll_char] at hws
      by_cases hdl : Link.defines ⟨h⟩ ∈ events
      · rw [if_pos hdl] at hws
        cases hws
      · rw [if_neg hdl] at hws
        by_cases huo : usesOf events h = []
        · rw [if_pos huo] at hws
          cases hws
        · have hune : ¬ (usesFull events h = []) := by
            intro hnil
            rw [usesOf_eq_map, hnil] at huo
            exact huo rfl
          constructor
          · refine ⟨usesFull events h, ?_⟩
            rw [driver_used_char, if_neg hune]
          · rw [driver_defined_char]
            exact hdl
  · intro lst hlst hnd
    have hdl : ¬ (Link.defines ⟨h⟩ ∈ events) := by
      rw [← driver_defined_char]; exact hnd
    have hune : ¬ (usesFull events h = []) := by
      intro hnil
      rw [driver_used_char, if_pos hnil] at hlst
      cases hlst
    have hlsteq : lst = usesFull events h := by
      rw [driver_used_char, if_neg hune] at hlst
      exact (Option.some_inj.mp hlst).symm
    have huo : ¬ (usesOf events h = []) := by
      rw [usesOf_eq_map]
      simp [hune]
    have hcl : (BrokenLinkCollector.new.ingestAll events).links h =
        some (.undefined (usesOf events h)) := by
      rw [ingestAll_char, if_neg hdl, if_neg huo]
    have hred : (BrokenLinkCollector.new.ingestAll events).brokenLinksOf
        check h = (usesOf events h).map fun pw =>
          { hard404 := (BrokenLinkCollector.new.ingestAll
              events).hard404Of check h
            link := { href := h, path := pw.1, paragraph := pw.2 } } := by
      rw [BrokenLinkCollector.brokenLinksOf, hcl]
    rw [hred, hlsteq, usesOf_eq_map, List.map_map, hpart2]
    apply List.map_congr_left
    intro u hu
    have hhref : u.href = h := usesFull_href events h u hu
    cases u with
    | mk href path paragraph =>
      have h2 : href = h := hhref
      subst h2
      rfl

/-! ## Exit-code lemmas -/

theorem classify_counts (check : Bool) (defined : List Str)
    (pmap : List (Fp × List Str)) (used : SMap (List UsedLink)) :
    ∀ acc,
    (used.foldl (classifyStep check defined pmap) acc).2.1 =
      acc.2.1 + used.countP (fun ent =>
        !(decide (ent.1 ∈ defined)) && driverHard404 defined check ent.1)
    ∧ (used.foldl (classifyStep check defined pmap) acc).2.2 =
      acc.2.2 + used.countP (fun ent =>
        !(decide (ent.1 ∈ defined))
          && !(driverHard404 defined check ent.1)) := by
  induction used with
  | nil => intro acc; simp
  | cons ent rest ih =>
    intro acc
    rw [List.foldl_cons]
    obtain ⟨ih1, ih2⟩ := ih (classifyStep check defined pmap acc ent)
    rw [List.countP_cons, List.countP_cons]
    constructor
    · rw [ih1]
      by_cases hin : ent.1 ∈ defined
      · simp [classifyStep, hin]
      · by_cases hhard : driverHard404 defined check ent.1
        · simp only [classifyStep, hin, if_false]
          simp [hin, hhard]
          omega
        · simp only [classifyStep, hin, if_false]
          simp [hin, hhard]
    · rw [ih2]
      by_cases hin : ent.1 ∈ defined
      · simp [classifyStep, hin]
      · by_cases hhard : driverHard404 defined check ent.1
        · simp only [classifyStep, hin, if_false]
          simp [hin, hhard]
        · simp only [classifyStep, hin, if_false]
          simp [hin, hhard]
          omega

theorem classifyAll_counts (check : Bool) (defined : List Str)
    (pmap : List (Fp × List Str)) (used : SMap (List UsedLink)) :
    (classifyAll check defined pmap used).2.1 =
      used.countP (fun ent =>
        !(decide (ent.1 ∈ defined)) && driverHard404 defined check ent.1)
    ∧ (classifyAll check defined pmap used).2.2 =
      used.countP (fun ent =>
        !(decide (ent.1 ∈ defined))
          && !(driverHard404 defined check ent.1)) := by
  have h := classify_counts check defined pmap used ([], 0, 0)
  simpa [classifyAll] using h

theorem exit_iff_core (check : Bool) (defined : List Str)
    (pmap : List (Fp × List Str)) (used : SMap (List UsedLink)) :
    (exitCode (classifyAll check defined pmap used).2.1
        (classifyAll check defined pmap used).2.2 = 1 ↔
      ∃ ent ∈ used, ent.1 ∉ defined
        ∧ driverHard404 defined check ent.1 = true)
    ∧ (¬ (∃ ent ∈ used, ent.1 ∉ defined
          ∧ driverHard404 defined check ent.1 = true) →
        (exitCode (classifyAll check defined pmap used).2.1
            (classifyAll check defined pmap used).2.2 = 2 ↔
          ∃ ent ∈ used, ent.1 ∉ defined
            ∧ driverHard404 defined check ent.1 = false))
    ∧ (exitCode (classifyAll check defined pmap used).2.1
          (classifyAll check defined pmap used).2.2 = 0 ↔
        ¬ ∃ ent ∈ used, ent.1 ∉ defined)
    ∧ ((∃ ent ∈ used, ent.1 ∉ defined
          ∧ driverHard404 defined check ent.1 = false) → check = true) := by
  obtain ⟨hb, ha⟩ := classifyAll_counts check defined pmap used
  have hex1 : 0 < (classifyAll check defined pmap used).2.1 ↔
      ∃ ent ∈ used, ent.1 ∉ defined
        ∧ driverHard404 defined check ent.1 = true := by
    rw [hb, List.countP_pos_iff]
    constructor
    · rintro ⟨ent, hm, hp⟩
      simp only [Bool.and_eq_true, Bool.not_eq_true', decide_eq_false_iff_not]
        at hp
      exact ⟨ent, hm, hp.1, hp.2⟩
    · rintro ⟨ent, hm, h1, h2⟩
      refine ⟨ent, hm, ?_⟩
      simp only [Bool.and_eq_true, Bool.not_eq_true', decide_eq_false_iff_not]
      exact ⟨h1, h2⟩
  have hex2 : 0 < (classifyAll check defined pmap used).2.2 ↔
      ∃ ent ∈ used, ent.1 ∉ defined
        ∧ driverHard404 defined check ent.1 = false := by
    rw [ha, List.countP_pos_iff]
    constructor
    · rintro ⟨ent, hm, hp⟩
      simp only [Bool.and_eq_true, Bool.not_eq_true',
        decide_eq_false_iff_not] at hp
      exact ⟨ent, hm, hp.1, hp.2⟩
    · rintro ⟨ent, hm, h1, h2⟩
      refine ⟨ent, hm, ?_⟩
      simp only [Bool.and_eq_true, Bool.not_eq_true', decide_eq_false_iff_not]
      exact ⟨h1, h2⟩
  refine ⟨?_, ?_, ?_, ?_⟩
  · rw [exitCode]
    by_cases h1 : 0 < (classifyAll check defined pmap used).2.1
    · rw [if_pos h1]
      simp only [true_iff]
      exact hex1.mp h1
    · rw [if_neg h1]
      constructor
      · intro h2
        by_cases h3 : 0 < (classifyAll check defined pmap used).2.2 <;>
          simp [h3] at h2
      · intro h2
        exact absurd (hex1.mpr h2) h1
  · intro hno
    have h1 : ¬ 0 < (classifyAll check defined pmap used).2.1 :=
      fun hh => hno (hex1.mp hh)
    rw [exitCode, if_neg h1]
    by_cases h3 : 0 < (classifyAll check defined pmap used).2.2
    · rw [if_pos h3]
      simp only [true_iff]
      exact hex2.mp h3
    · rw [if_neg h3]
      constructor
      · intro h2; cases h2
      · intro h2
        exact absurd (hex2.mpr h2) h3
  · rw [exitCode]
    constructor
    · intro h0
      rintro ⟨ent, hm, hnd⟩
      by_cases h1 : 0 < (classifyAll check defined pmap used).2.1
      · rw [if_pos h1] at h0; cases h0
      · rw [if_neg h1] at h0
        by_cases h3 : 0 < (classifyAll check defined pmap used).2.2
        · rw [if_pos h3] at h0; cases h0
        · rcases hbool : driverHard404 defined check ent.1 with _ | _
          · exact h3 (hex2.mpr ⟨ent, hm, hnd, hbool⟩)
          · exact h1 (hex1.mpr ⟨ent, hm, hnd, hbool⟩)
    · intro hno
      have h1 : ¬ 0 < (classifyAll check defined pmap used).2.1 := by
        intro hh
        obtain ⟨ent, hm, hnd, _⟩ := hex1.mp hh
        exact hno ⟨ent, hm, hnd⟩
      have h3 : ¬ 0 < (classifyAll check defined pmap used).2.2 := by
        intro hh
        obtain ⟨ent, hm, hnd, _⟩ := hex2.mp hh
        exact hno ⟨ent, hm, hnd⟩
      rw [if_neg h1, if_neg h3]
  · rintro ⟨ent, _, _, hsoft⟩
    cases check with
    | true => rfl
    | false =>
      rw [driverHard404] at hsoft
      simp at hsoft

/-- C4.  When a run completes without configuration errors, the process
exit code is 1 iff at least one broken href is classified hard;
otherwise it is 2 iff at least one broken href is classified soft (which
requires `--check-anchors`); otherwise it is 0. -/
theorem exit_code_ladder (check gh : Bool) (base : Str)
    (entries : List DirEntry) (linksOf : Str → List Link)
    (pmap : List (Fp × List Str)) (fileHrefs docs : List Str)
    (hdisc : discover base entries [] [] = .ok (fileHrefs, docs)) :
    runHyperlink check gh base entries linksOf pmap =
      .ok (emitReport gh (classifyAll check
          (pipelineDefined fileHrefs docs linksOf) pmap
          (pipelineAgg docs linksOf).1).1,
        exitCode
          (classifyAll check (pipelineDefined fileHrefs docs linksOf) pmap
            (pipelineAgg docs linksOf).1).2.1
          (classifyAll check (pipelineDefined fileHrefs docs linksOf) pmap
            (pipelineAgg docs linksOf).1).2.2)
    ∧ (exitCode
          (classifyAll check (pipelineDefined fileHrefs docs linksOf) pmap
            (pipelineAgg docs linksOf).1).2.1
          (classifyAll check (pipelineDefined fileHrefs docs linksOf) pmap
            (pipelineAgg docs linksOf).1).2.2 = 1 ↔
        ∃ ent ∈ (pipelineAgg docs linksOf).1,
          ent.1 ∉ pipelineDefined fileHrefs docs linksOf
          ∧ driverHard404 (pipelineDefined fileHrefs docs linksOf) check
              ent.1 = true)
    ∧ (¬ (∃ ent ∈ (pipelineAgg docs linksOf).1,
            ent.1 ∉ pipelineDefined fileHrefs docs linksOf
            ∧ driverHard404 (pipelineDefined fileHrefs docs linksOf) check
                ent.1 = true) →
        (exitCode
            (classifyAll check (pipelineDefined fileHrefs docs linksOf)
              pmap (pipelineAgg docs linksOf).1).2.1
            (classifyAll check (pipelineDefined fileHrefs docs linksOf)
              pmap (pipelineAgg docs linksOf).1).2.2 = 2 ↔
          ∃ ent ∈ (pipelineAgg docs linksOf).1,
            ent.1 ∉ pipelineDefined fileHrefs docs linksOf
            ∧ driverHard404 (pipelineDefined fileHrefs docs linksOf) check
                ent.1 = false))
    ∧ (exitCode
          (classifyAll check (pipelineDefined fileHrefs docs linksOf) pmap
            (pipelineAgg docs linksOf).1).2.1
          (classifyAll check (pipelineDefined fileHrefs docs linksOf) pmap
            (pipelineAgg docs linksOf).1).2.2 = 0 ↔
        ¬ ∃ ent ∈ (pipelineAgg docs linksOf).1,
          ent.1 ∉ pipelineDefined fileHrefs docs linksOf)
    ∧ ((∃ ent ∈ (pipelineAgg docs linksOf).1,
          ent.1 ∉ pipelineDefined fileHrefs docs linksOf
          ∧ driverHard404 (pipelineDefined fileHrefs docs linksOf) check
              ent.1 = false) → check = true) := by
  constructor
  · unfold runHyperlink
    rw [hdisc]
  · exact exit_iff_core check (pipelineDefined fileHrefs docs linksOf) pmap
      (pipelineAgg docs linksOf).1

theorem exit_code_ladder_witness :
    (discover [] [] [] [] = Except.ok (([] : List Str), ([] : List Str)))
    ∧ (runHyperlink true false [] [] (fun _ => []) [] =
        .ok (emitReport false (classifyAll true
            (pipelineDefined [] [] (fun _ => [])) []
            (pipelineAgg [] (fun _ => [])).1).1,
          exitCode
            (classifyAll true (pipelineDefined [] [] (fun _ => [])) []
              (pipelineAgg [] (fun _ => [])).1).2.1
            (classifyAll true (pipelineDefined [] [] (fun _ => [])) []
              (pipelineAgg [] (fun _ => [])).1).2.2)
      ∧ (exitCode
            (classifyAll true (pipelineDefined [] [] (fun _ => [])) []
              (pipelineAgg [] (fun _ => [])).1).2.1
            (classifyAll true (pipelineDefined [] [] (fun _ => [])) []
              (pipelineAgg [] (fun _ => [])).1).2.2 = 1 ↔
          ∃ ent ∈ (pipelineAgg [] (fun _ => [])).1,
            ent.1 ∉ pipelineDefined [] [] (fun _ => [])
            ∧ driverHard404 (pipelineDefined [] [] (fun _ => [])) true
                ent.1 = true)
      ∧ (¬ (∃ ent ∈ (pipelineAgg [] (fun _ => [])).1,
              ent.1 ∉ pipelineDefined [] [] (fun _ => [])
              ∧ driverHard404 (pipelineDefined [] [] (fun _ => [])) true
                  ent.1 = true) →
          (exitCode
              (classifyAll true (pipelineDefined [] [] (fun _ => [])) []
                (pipelineAgg [] (fun _ => [])).1).2.1
              (classifyAll true (pipelineDefined [] [] (fun _ => [])) []
                (pipelineAgg [] (fun _ => [])).1).2.2 = 2 ↔
            ∃ ent ∈ (pipelineAgg [] (fun _ => [])).1,
              ent.1 ∉ pipelineDefined [] [] (fun _ => [])
              ∧ driverHard404 (pipelineDefined [] [] (fun _ => [])) true
                  ent.1 = false))
      ∧ (exitCode
            (classifyAll true (pipelineDefined [] [] (fun _ => [])) []
              (pipelineAgg [] (fun _ => [])).1).2.1
            (classifyAll true (pipelineDefined [] [] (fun _ => [])) []
              (pipelineAgg [] (fun _ => [])).1).2.2 = 0 ↔
          ¬ ∃ ent ∈ (pipelineAgg [] (fun _ => [])).1,
            ent.1 ∉ pipelineDefined [] [] (fun _ => []))
      ∧ ((∃ ent ∈ (pipelineAgg [] (fun _ => [])).1,
            ent.1 ∉ pipelineDefined [] [] (fun _ => [])
            ∧ driverHard404 (pipelineDefined [] [] (fun _ => [])) true
                ent.1 = false) → true = true)) :=
  ⟨rfl, exit_code_ladder true false [] [] (fun _ => []) [] [] [] rfl⟩

/-! ## Defect-routing lemmas -/

theorem pushDefect_sorted (rep : SMap (List Str × List Str)) (p0 : Str)
    (hard : Bool) (h0 : Str) (hs : SMap.Sorted rep) :
    SMap.Sorted (pushDefect rep p0 hard h0) :=
  SMap.entryApply_sorted _ _ _ _ hs

theorem pushDefect_lookup (rep : SMap (List Str × List Str)) (p0 : Str)
    (hard : Bool) (h0 p : Str) (hs : SMap.Sorted rep) :
    SMap.lookup (pushDefect rep p0 hard h0) p =
      if p = p0 then
        some (if hard
          then (((SMap.lookup rep p0).getD ([], [])).1 ++ [h0],
            ((SMap.lookup rep p0).getD ([], [])).2)
          else (((SMap.lookup rep p0).getD ([], [])).1,
            ((SMap.lookup rep p0).getD ([], [])).2 ++ [h0]))
      else SMap.lookup rep p := by
  rw [pushDefect, SMap.lookup_entryApply _ _ _ _ _ hs]

theorem errMem_pushDefect (rep : SMap (List Str × List Str)) (p0 : Str)
    (hard : Bool) (h0 p h : Str) (hs : SMap.Sorted rep) :
    (repErrMem (pushDefect rep p0 hard h0) p h ↔
      repErrMem rep p h ∨ (p = p0 ∧ hard = true ∧ h = h0))
    ∧ (repWarnMem (pushDefect rep p0 hard h0) p h ↔
      repWarnMem rep p h ∨ (p = p0 ∧ hard = false ∧ h = h0)) := by
  rw [repErrMem, repWarnMem, repErrMem, repWarnMem]
  rw [pushDefect_lookup rep p0 hard h0 p hs]
  by_cases hp : p = p0
  · subst hp
    rw [if_pos rfl]
    rcases hlk : SMap.lookup rep p with _ | ew
    · cases hard <;> simp [hlk]
    · cases hard <;> simp [hlk]
  · simp [hp]

theorem errMem_pushList (hard : Bool) (h0 p h : Str) :
    ∀ (targets : List Str) (rep : SMap (List Str × List Str)),
    SMap.Sorted rep →
    (SMap.Sorted (targets.foldl (fun r p2 => pushDefect r p2 hard h0) rep)
    ∧ (repErrMem (targets.foldl (fun r p2 => pushDefect r p2 hard h0) rep)
        p h ↔ repErrMem rep p h ∨ (p ∈ targets ∧ hard = true ∧ h = h0))
    ∧ (repWarnMem (targets.foldl (fun r p2 => pushDefect r p2 hard h0) rep)
        p h ↔ repWarnMem rep p h ∨ (p ∈ targets ∧ hard = false ∧ h = h0)))
    := by
  intro targets
  induction targets with
  | nil => intro rep hs; simp [hs]
  | cons t rest ih =>
    intro rep hs
    rw [List.foldl_cons]
    obtain ⟨ihs, ihe, ihw⟩ := ih (pushDefect rep t hard h0)
      (pushDefect_sorted rep t hard h0 hs)
    obtain ⟨he, hw⟩ := errMem_pushDefect rep t hard h0 p h hs
    refine ⟨ihs, ?_, ?_⟩
    · rw [ihe, he]
      constructor
      · rintro ((hm | ⟨rfl, hh⟩) | ⟨hm, hh⟩)
        · exact Or.inl hm
        · exact Or.inr ⟨List.mem_cons_self _ _, hh⟩
        · exact Or.inr ⟨List.mem_cons_of_mem _ hm, hh⟩
      · rintro (hm | ⟨hm, hh⟩)
        · exact Or.inl (Or.inl hm)
        · rcases List.mem_cons.mp hm with rfl | hm2
          · exact Or.inl (Or.inr ⟨rfl, hh⟩)
          · exact Or.inr ⟨hm2, hh⟩
    · rw [ihw, hw]
      constructor
      · rintro ((hm | ⟨rfl, hh⟩) | ⟨hm, hh⟩)
        · exact Or.inl hm
        · exact Or.inr ⟨List.mem_cons_self _ _, hh⟩
        · exact Or.inr ⟨List.mem_cons_of_mem _ hm, hh⟩
      · rintro (hm | ⟨hm, hh⟩)
        · exact Or.inl (Or.inl hm)
        · rcases List.mem_cons.mp hm with rfl | hm2
          · exact Or.inl (Or.inr ⟨rfl, hh⟩)
          · exact Or.inr ⟨hm2, hh⟩

theorem errMem_links (pmap : List (Fp × List Str)) (hard : Bool)
    (h0 p h : Str) :
    ∀ (links : List UsedLink) (rep : SMap (List Str × List Str)),
    SMap.Sorted rep →
    (SMap.Sorted (links.foldl (routePush pmap hard h0) rep)
    ∧ (repErrMem (links.foldl (routePush pmap hard h0) rep) p h ↔
        repErrMem rep p h ∨ ((∃ u ∈ links, p ∈ routeTargets pmap u)
          ∧ hard = true ∧ h = h0))
    ∧ (repWarnMem (links.foldl (routePush pmap hard h0) rep) p h ↔
        repWarnMem rep p h ∨ ((∃ u ∈ links, p ∈ routeTargets pmap u)
          ∧ hard = false ∧ h = h0))) := by
  intro links
  induction links with
  | nil => intro rep hs; simp [hs]
  | cons u rest ih =>
    intro rep hs
    rw [List.foldl_cons]
    have hone := errMem_pushList hard h0 p h (routeTargets pmap u) rep hs
    obtain ⟨hos, hoe, how⟩ := hone
    obtain ⟨ihs, ihe, ihw⟩ := ih (routePush pmap hard h0 rep u) hos
    refine ⟨ihs, ?_, ?_⟩
    · rw [ihe]
      rw [show routePush pmap hard h0 rep u =
        (routeTargets pmap u).foldl (fun r p2 => pushDefect r p2 hard h0)
          rep from rfl]
      rw [hoe]
      constructor
      · rintro ((hm | ⟨hm, hh⟩) | ⟨⟨u2, hu2, hp2⟩, hh⟩)
        · exact Or.inl hm
        · exact Or.inr ⟨⟨u, List.mem_cons_self _ _, hm⟩, hh⟩
        · exact Or.inr ⟨⟨u2, List.mem_cons_of_mem _ hu2, hp2⟩, hh⟩
      · rintro (hm | ⟨⟨u2, hu2, hp2⟩, hh⟩)
        · exact Or.inl (Or.inl hm)
        · rcases List.mem_cons.mp hu2 with rfl | hm2
          · exact Or.inl (Or.inr ⟨hp2, hh⟩)
          · exact Or.inr ⟨⟨u2, hm2, hp2⟩, hh⟩
    · rw [ihw]
      rw [show routePush pmap hard h0 rep u =
        (routeTargets pmap u).foldl (fun r p2 => pushDefect r p2 hard h0)
          rep from rfl]
      rw [how]
      constructor
      · rintro ((hm | ⟨hm, hh⟩) | ⟨⟨u2, hu2, hp2⟩, hh⟩)
        · exact Or.inl hm
        · exact Or.inr ⟨⟨u, List.mem_cons_self _ _, hm⟩, hh⟩
        · exact Or.inr ⟨⟨u2, List.mem_cons_of_mem _ hu2, hp2⟩, hh⟩
      · rintro (hm | ⟨⟨u2, hu2, hp2⟩, hh⟩)
        · exact Or.inl (Or.inl hm)
        · rcases List.mem_cons.mp hu2 with rfl | hm2
          · exact Or.inl (Or.inr ⟨hp2, hh⟩)
          · exact Or.inr ⟨⟨u2, hm2, hp2⟩, hh⟩

theorem errMem_classify (check : Bool) (defined : List Str)
    (pmap : List (Fp × List Str)) (p h : Str) :
    ∀ (used : SMap (List UsedLink))
      (acc : SMap (List Str × List Str) × Nat × Nat),
    SMap.Sorted acc.1 →
    (SMap.Sorted (used.foldl (classifyStep check defined pmap) acc).1
    ∧ (repErrMem (used.foldl (classifyStep check defined pmap) acc).1 p h ↔
        repErrMem acc.1 p h ∨ ∃ ent ∈ used, ent.1 ∉ defined
          ∧ driverHard404 defined check ent.1 = true ∧ h = ent.1
          ∧ ∃ u ∈ ent.2, p ∈ routeTargets pmap u)
    ∧ (repWarnMem (used.foldl (classifyStep check defined pmap) acc).1
        p h ↔
        repWarnMem acc.1 p h ∨ ∃ ent ∈ used, ent.1 ∉ defined
          ∧ driverHard404 defined check ent.1 = false ∧ h = ent.1
          ∧ ∃ u ∈ ent.2, p ∈ routeTargets pmap u)) := by
  intro used
  induction used with
  | nil => intro acc hs; simp [hs]
  | cons ent rest ih =>
    intro acc hs
    rw [List.foldl_cons]
    by_cases hin : ent.1 ∈ defined
    · have hstep : classifyStep check defined pmap acc ent = acc := by
        rw [classifyStep, if_pos hin]
      rw [hstep]
      obtain ⟨ihs, ihe, ihw⟩ := ih acc hs
      refine ⟨ihs, ?_, ?_⟩
      · rw [ihe]
        constructor
        · rintro (hm | ⟨e2, hm2, hp2⟩)
          · exact Or.inl hm
          · exact Or.inr ⟨e2, List.mem_cons_of_mem _ hm2, hp2⟩
        · rintro (hm | ⟨e2, hm2, hnd, hp2⟩)
          · exact Or.inl hm
          · rcases List.mem_cons.mp hm2 with rfl | hm3
            · exact absurd hin hnd
            · exact Or.inr ⟨e2, hm3, hnd, hp2⟩
      · rw [ihw]
        constructor
        · rintro (hm | ⟨e2, hm2, hp2⟩)
          · exact Or.inl hm
          · exact Or.inr ⟨e2, List.mem_cons_of_mem _ hm2, hp2⟩
        · rintro (hm | ⟨e2, hm2, hnd, hp2⟩)
          · exact Or.inl hm
          · rcases List.mem_cons.mp hm2 with rfl | hm3
            · exact absurd hin hnd
            · exact Or.inr ⟨e2, hm3, hnd, hp2⟩
    · have hstep : classifyStep check defined pmap acc ent =
          (ent.2.foldl
            (routePush pmap (driverHard404 defined check ent.1) ent.1)
            acc.1,
          (if driverHard404 defined check ent.1 then acc.2.1 + 1
            else acc.2.1),
          (if driverHard404 defined check ent.1 then acc.2.2
            else acc.2.2 + 1)) := by
        rw [classifyStep, if_neg hin]
      rw [hstep]
      obtain ⟨hls, hle, hlw⟩ := errMem_links pmap
        (driverHard404 defined check ent.1) ent.1 p h ent.2 acc.1 hs
      obtain ⟨ihs, ihe, ihw⟩ := ih
        (ent.2.foldl
          (routePush pmap (driverHard404 defined check ent.1) ent.1) acc.1,
        (if driverHard404 defined check ent.1 then acc.2.1 + 1
          else acc.2.1),
        (if driverHard404 defined check ent.1 then acc.2.2
          else acc.2.2 + 1)) hls
      refine ⟨ihs, ?_, ?_⟩
      · rw [ihe]
        show repErrMem (ent.2.foldl
            (routePush pmap (driverHard404 defined check ent.1) ent.1)
            acc.1) p h ∨ _ ↔ _
        rw [hle]
        constructor
        · rintro ((hm | ⟨hu, hh, rfl⟩) | ⟨e2, hm2, hp2⟩)
          · exact Or.inl hm
          · exact Or.inr ⟨ent, List.mem_cons_self _ _, hin, hh, rfl, hu⟩
          · exact Or.inr ⟨e2, List.mem_cons_of_mem _ hm2, hp2⟩
        · rintro (hm | ⟨e2, hm2, hnd, hh, hhe, hu⟩)
          · exact Or.inl (Or.inl hm)
          · rcases List.mem_cons.mp hm2 with rfl | hm3
            · exact Or.inl (Or.inr ⟨hu, hh, hhe⟩)
            · exact Or.inr ⟨e2, hm3, hnd, hh, hhe, hu⟩
      · rw [ihw]
        show repWarnMem (ent.2.foldl
            (routePush pmap (driverHard404 defined check ent.1) ent.1)
            acc.1) p h ∨ _ ↔ _
        rw [hlw]
        constructor
        · rintro ((hm | ⟨hu, hh, rfl⟩) | ⟨e2, hm2, hp2⟩)
          · exact Or.inl hm
          · exact Or.inr ⟨ent, List.mem_cons_self _ _, hin, hh, rfl, hu⟩
          · exact Or.inr ⟨e2, List.mem_cons_of_mem _ hm2, hp2⟩
        · rintro (hm | ⟨e2, hm2, hnd, hh, hhe, hu⟩)
          · exact Or.inl (Or.inl hm)
          · rcases List.mem_cons.mp hm2 with rfl | hm3
            · exact Or.inl (Or.inr ⟨hu, hh, hhe⟩)
            · exact Or.inr ⟨e2, hm3, hnd, hh, hhe, hu⟩

theorem repErrMem_nil (p h : Str) : ¬ repErrMem [] p h := by
  rintro ⟨ew, hlk, _⟩
  cases hlk

theorem repWarnMem_nil (p h : Str) : ¬ repWarnMem [] p h := by
  rintro ⟨ew, hlk, _⟩
  cases hlk

/-- C5.  For every witness of a broken href: a witness carrying a
fingerprint present in the paragraph map is routed to every source file
in `paragraph_map[fp]` and not to its own HTML path; otherwise (no
fingerprint, or fingerprint absent) it is routed to its own HTML path.
An href appears among the defects of destination `p` exactly when some
witness of a broken href routes to `p`. -/
theorem paragraph_attribution (check : Bool) (defined : List Str)
    (pmap : List (Fp × List Str)) (used : SMap (List UsedLink))
    (p h : Str) :
    (repErrMem (classifyAll check defined pmap used).1 p h ↔
      ∃ ent ∈ used, ent.1 ∉ defined
        ∧ driverHard404 defined check ent.1 = true ∧ h = ent.1
        ∧ ∃ u ∈ ent.2, p ∈ routeTargets pmap u)
    ∧ (repWarnMem (classifyAll check defined pmap used).1 p h ↔
      ∃ ent ∈ used, ent.1 ∉ defined
        ∧ driverHard404 defined check ent.1 = false ∧ h = ent.1
        ∧ ∃ u ∈ ent.2, p ∈ routeTargets pmap u)
    ∧ (∀ u : UsedLink, ∀ fp srcs, u.paragraph = some fp →
        lookupFp pmap fp = some srcs → routeTargets pmap u = srcs)
    ∧ (∀ u : UsedLink, ∀ fp, u.paragraph = some fp →
        lookupFp pmap fp = none → routeTargets pmap u = [u.path])
    ∧ (∀ u : UsedLink, u.paragraph = none →
        routeTargets pmap u = [u.path]) := by
  obtain ⟨_, he, hw⟩ := errMem_classify check defined pmap p h used
    ([], 0, 0) List.Pairwise.nil
  refine ⟨?_, ?_, ?_, ?_, ?_⟩
  · rw [classifyAll, he]
    simp only [repErrMem_nil p h, false_or]
  · rw [classifyAll, hw]
    simp only [repWarnMem_nil p h, false_or]
  · intro u fp srcs hpar hlk
    simp only [routeTargets, hpar, hlk]
  · intro u fp hpar hlk
    simp only [routeTargets, hpar, hlk]
  · intro u hpar
    simp only [routeTargets, hpar]

/-! ## Report-ordering lemmas -/

theorem sorted_append_le (l : List Str) (x : Str)
    (hs : List.Sorted (· ≤ ·) l) (hb : ∀ y ∈ l, y ≤ x) :
    List.Sorted (· ≤ ·) (l ++ [x]) := by
  rw [List.Sorted, List.pairwise_append]
  refine ⟨hs, List.pairwise_singleton _ _, ?_⟩
  intro a ha b hb2
  rw [List.mem_singleton] at hb2
  subst hb2
  exact hb a ha

theorem pushDefect_groups (rep : SMap (List Str × List Str)) (p0 : Str)
    (hard : Bool) (h0 : Str) (hb : repBounded rep h0)
    (hg : repGroupsSorted rep) :
    repBounded (pushDefect rep p0 hard h0) h0
    ∧ repGroupsSorted (pushDefect rep p0 hard h0) := by
  have hval : ∀ pv ∈ pushDefect rep p0 hard h0,
      pv ∈ rep ∨ ∃ v0, (v0 = (([], []) : List Str × List Str)
        ∨ (p0, v0) ∈ rep)
        ∧ pv = (p0, if hard then (v0.1 ++ [h0], v0.2)
            else (v0.1, v0.2 ++ [h0])) := by
    intro pv hpv
    rcases SMap.entryApply_mem rep p0 ([], []) _ pv hpv with hin | ⟨v0, hv0, heq⟩
    · exact Or.inl hin
    · exact Or.inr ⟨v0, hv0, heq⟩
  have hv0b : ∀ v0 : List Str × List Str,
      (v0 = ([], []) ∨ (p0, v0) ∈ rep) →
      ((∀ x ∈ v0.1, x ≤ h0) ∧ (∀ x ∈ v0.2, x ≤ h0))
      ∧ (List.Sorted (· ≤ ·) v0.1 ∧ List.Sorted (· ≤ ·) v0.2) := by
    rintro v0 (rfl | hin)
    · exact ⟨⟨by simp, by simp⟩, by simp, by simp⟩
    · exact ⟨hb (p0, v0) hin, hg (p0, v0) hin⟩
  constructor
  · intro pv hpv
    rcases hval pv hpv with hin | ⟨v0, hv0, rfl⟩
    · exact hb pv hin
    · obtain ⟨⟨hb1, hb2⟩, _, _⟩ := hv0b v0 hv0
      cases hard
      · refine ⟨fun x hx => hb1 x hx, fun x hx => ?_⟩
        rcases List.mem_append.mp hx with hx2 | hx2
        · exact hb2 x hx2
        · rw [List.mem_singleton] at hx2
          subst hx2
          exact le_refl x
      · refine ⟨fun x hx => ?_, fun x hx => hb2 x hx⟩
        rcases List.mem_append.mp hx with hx2 | hx2
        · exact hb1 x hx2
        · rw [List.mem_singleton] at hx2
          subst hx2
          exact le_refl x
  · intro pv hpv
    rcases hval pv hpv with hin | ⟨v0, hv0, rfl⟩
    · exact hg pv hin
    · obtain ⟨⟨hb1, hb2⟩, hg1, hg2⟩ := hv0b v0 hv0
      cases hard
      · exact ⟨hg1, sorted_append_le v0.2 h0 hg2 hb2⟩
      · exact ⟨sorted_append_le v0.1 h0 hg1 hb1, hg2⟩

theorem pushList_groups (hard : Bool) (h0 : Str) :
    ∀ (targets : List Str) (rep : SMap (List Str × List Str)),
    repBounded rep h0 → repGroupsSorted rep →
    repBounded (targets.foldl (fun r p2 => pushDefect r p2 hard h0) rep) h0
    ∧ repGroupsSorted
        (targets.foldl (fun r p2 => pushDefect r p2 hard h0) rep) := by
  intro targets
  induction targets with
  | nil => intro rep hb hg; exact ⟨hb, hg⟩
  | cons t rest ih =>
    intro rep hb hg
    rw [List.foldl_cons]
    obtain ⟨hb2, hg2⟩ := pushDefect_groups rep t hard h0 hb hg
    exact ih (pushDefect rep t hard h0) hb2 hg2

theorem pushes_groups (pmap : List (Fp × List Str)) (hard : Bool)
    (h0 : Str) :
    ∀ (links : List UsedLink) (rep : SMap (List Str × List Str)),
    repBounded rep h0 → repGroupsSorted rep →
    repBounded (links.foldl (routePush pmap hard h0) rep) h0
    ∧ repGroupsSorted (links.foldl (routePush pmap hard h0) rep) := by
  intro links
  induction links with
  | nil => intro rep hb hg; exact ⟨hb, hg⟩
  | cons u rest ih =>
    intro rep hb hg
    rw [List.foldl_cons]
    obtain ⟨hb2, hg2⟩ := pushList_groups hard h0 (routeTargets pmap u)
      rep hb hg
    exact ih (routePush pmap hard h0 rep u) hb2 hg2

theorem classify_groups (check : Bool) (defined : List Str)
    (pmap : List (Fp × List Str)) :
    ∀ (used : SMap (List UsedLink))
      (acc : SMap (List Str × List Str) × Nat × Nat),
    List.Pairwise (fun a b => a.1 < b.1) used →
    SMap.Sorted acc.1 →
    repGroupsSorted acc.1 →
    repBelow acc.1 used →
    SMap.Sorted (used.foldl (classifyStep check defined pmap) acc).1
    ∧ repGroupsSorted
        (used.foldl (classifyStep check defined pmap) acc).1 := by
  intro used
  induction used with
  | nil => intro acc _ hs hg _; exact ⟨hs, hg⟩
  | cons ent rest ih =>
    intro acc hpw hs hg hbl
    obtain ⟨hall, hrest⟩ := List.pairwise_cons.mp hpw
    rw [List.foldl_cons]
    by_cases hin : ent.1 ∈ defined
    · have hstep : classifyStep check defined pmap acc ent = acc := by
        rw [classifyStep, if_pos hin]
      rw [hstep]
      refine ih acc hrest hs hg ?_
      intro pv hpv ent2 hent2
      exact hbl pv hpv ent2 (List.mem_cons_of_mem _ hent2)
    · have hstep : (classifyStep check defined pmap acc ent).1 =
          ent.2.foldl
            (routePush pmap (driverHard404 defined check ent.1) ent.1)
            acc.1 := by
        rw [classifyStep, if_neg hin]
      have hb : repBounded acc.1 ent.1 := by
        intro pv hpv
        obtain ⟨h1, h2⟩ := hbl pv hpv ent (List.mem_cons_self _ _)
        exact ⟨fun x hx => le_of_lt (h1 x hx),
          fun x hx => le_of_lt (h2 x hx)⟩
      obtain ⟨hb2, hg2⟩ := pushes_groups pmap
        (driverHard404 defined check ent.1) ent.1 ent.2 acc.1 hb hg
      have hs2 : SMap.Sorted (classifyStep check defined pmap acc ent).1 := by
        rw [hstep]
        exact (errMem_links pmap (driverHard404 defined check ent.1) ent.1
          [] [] ent.2 acc.1 hs).1
      have hbl2 : repBelow (classifyStep check defined pmap acc ent).1
          rest := by
        rw [hstep]
        intro pv hpv ent2 hent2
        obtain ⟨h1, h2⟩ := hb2 pv hpv
        have hk : ent.1 < ent2.1 := hall ent2 hent2
        exact ⟨fun x hx => lt_of_le_of_lt (h1 x hx) hk,
          fun x hx => lt_of_le_of_lt (h2 x hx) hk⟩
      have hg3 : repGroupsSorted
          (classifyStep check defined pmap acc ent).1 := by
        rw [hstep]; exact hg2
      have := ih (classifyStep check defined pmap acc ent) hrest hs2 hg3 hbl2
      exact this

theorem emitFile_eq (gh : Bool) (p : Str) (e w : List Str) :
    emitFile gh p e w = OutLine.header p ::
      (e.map OutLine.errorLine ++ (w.map OutLine.warningLine
        ++ ((if gh && !e.isEmpty then [OutLine.ghBadLinks p e] else [])
          ++ ((if gh && !w.isEmpty then [OutLine.ghBadAnchors p w] else [])
            ++ [OutLine.blank])))) := by
  rw [emitFile]
  simp [List.append_assoc]

theorem errorLine_not_in_tail (gh : Bool) (p : Str) (e w : List Str)
    (h1 : Str) :
    OutLine.errorLine h1 ∉ w.map OutLine.warningLine
      ++ ((if gh && !e.isEmpty then [OutLine.ghBadLinks p e] else [])
        ++ ((if gh && !w.isEmpty then [OutLine.ghBadAnchors p w] else [])
          ++ [OutLine.blank])) := by
  intro hm
  rcases List.mem_append.mp hm with hm1 | hm2
  · obtain ⟨x, _, hx⟩ := List.mem_map.mp hm1
    cases hx
  · rcases List.mem_append.mp hm2 with hm3 | hm4
    · split_ifs at hm3
      · rw [List.mem_singleton] at hm3
        cases hm3
      · cases hm3
    · rcases List.mem_append.mp hm4 with hm5 | hm6
      · split_ifs at hm5
        · rw [List.mem_singleton] at hm5
          cases hm5
        · cases hm5
      · rw [List.mem_singleton] at hm6
        cases hm6

theorem emitFile_err_idx (gh : Bool) (p : Str) (e w : List Str) (i : Nat)
    (h1 : Str)
    (hget : (emitFile gh p e w)[i]? = some (OutLine.errorLine h1)) :
    1 ≤ i ∧ i - 1 < e.length := by
  rcases i with _ | n
  · rw [emitFile_eq] at hget
    simp at hget
  · refine ⟨Nat.succ_le_succ (Nat.zero_le n), ?_⟩
    simp only [Nat.succ_sub_one]
    by_contra hn
    push_neg at hn
    rw [emitFile_eq] at hget
    rw [List.getElem?_cons_succ] at hget
    have hlen : (e.map OutLine.errorLine).length ≤ n := by
      simpa using hn
    rw [List.getElem?_append_right hlen] at hget
    obtain ⟨hlt, hgeq⟩ := List.getElem?_eq_some_iff.mp hget
    have hmem := List.getElem_mem hlt
    rw [hgeq] at hmem
    exact errorLine_not_in_tail gh p e w h1 hmem

theorem emitFile_warn_idx (gh : Bool) (p : Str) (e w : List Str) (j : Nat)
    (h2 : Str)
    (hget : (emitFile gh p e w)[j]? = some (OutLine.warningLine h2)) :
    1 + e.length ≤ j := by
  rcases j with _ | n
  · rw [emitFile_eq] at hget
    simp at hget
  · by_contra hn
    push_neg at hn
    have hn2 : n < e.length := by omega
    rw [emitFile_eq] at hget
    rw [List.getElem?_cons_succ] at hget
    rw [List.getElem?_append] at hget
    rw [if_pos (by simpa using hn2)] at hget
    rw [List.getElem?_map] at hget
    rcases he : e[n]? with _ | y
    · rw [he] at hget
      cases hget
    · rw [he] at hget
      simp at hget

/-- C7 (amended).  Given a fixed set of defects, the emitted report is
deterministic and ordered: destination files appear in ascending path
order; within each destination file every hard `error: bad link` line
precedes every soft `warning: bad anchor` line; and within each file the
hard hrefs appear in ascending lexicographic order and the soft hrefs
appear in ascending lexicographic order (each severity group separately;
the concatenation of the two groups need not be globally ascending). -/
theorem report_emission_order (check gh : Bool) (events : List Link)
    (fileHrefs : List Str) (pmap : List (Fp × List Str)) :
    SMap.Sorted (classifyAll check
      (fileHrefs.foldl setInsert (driverAggregate events).2) pmap
      (driverAggregate events).1).1
    ∧ repGroupsSorted (classifyAll check
      (fileHrefs.foldl setInsert (driverAggregate events).2) pmap
      (driverAggregate events).1).1
    ∧ (∀ (p : Str) (e w : List Str) (i j : Nat) (h1 h2 : Str),
        (emitFile gh p e w)[i]? = some (OutLine.errorLine h1) →
        (emitFile gh p e w)[j]? = some (OutLine.warningLine h2) →
        i < j) := by
  obtain ⟨h1, h2⟩ := classify_groups check
    (fileHrefs.foldl setInsert (driverAggregate events).2) pmap
    (driverAggregate events).1 ([], 0, 0) (driverAggregate_sorted events)
    List.Pairwise.nil (fun pv hpv => absurd hpv (List.not_mem_nil _))
    (fun pv hpv => absurd hpv (List.not_mem_nil _))
  refine ⟨h1, h2, ?_⟩
  intro p e w i j hs1 hs2 hgi hgj
  obtain ⟨hi1, hi2⟩ := emitFile_err_idx gh p e w i hs1 hgi
  have hj1 := emitFile_warn_idx gh p e w j hs2 hgj
  omega

theorem report_emission_order_counterexample :
    ¬ (∀ pv ∈ (classifyAll true
        (([] : List Str).foldl setInsert
          (driverAggregate
            [Link.uses ⟨[47, 97, 35, 120], [102], none⟩,
              Link.uses ⟨[47, 98], [102], none⟩,
              Link.defines ⟨[47, 97]⟩]).2) []
        (driverAggregate
          [Link.uses ⟨[47, 97, 35, 120], [102], none⟩,
            Link.uses ⟨[47, 98], [102], none⟩,
            Link.defines ⟨[47, 97]⟩]).1).1,
      List.Sorted (· ≤ ·) (pv.2.1 ++ pv.2.2)) := by
  decide

/-! ## Discovery lemmas -/

theorem discover_error_aux (base : Str) :
    ∀ (l : List DirEntry) (hrefs docs : List Str),
    (HasSymlink l ∨ HasSeen base l hrefs ∨ HasDupHref base l) →
    ∃ err, discover base l hrefs docs = .error err := by
  intro l
  induction l with
  | nil =>
    rintro hrefs docs (⟨e, he, _⟩ | ⟨e, he, _⟩ | ⟨l1, e1, l2, e2, l3, hl, _⟩)
    · cases he
    · cases he
    · rcases l1 with _ | ⟨b, l1⟩ <;> cases hl
  | cons a rest ih =>
    intro hrefs docs hyp
    by_cases ha : a.isSymlink = true
    · refine ⟨.symlinkAt a.path, ?_⟩
      rw [discover, if_pos ha]
    · by_cases hf : a.isFile = true
      · by_cases hd : documentHref base a.path ∈ hrefs
        · refine ⟨.duplicateHref a.path, ?_⟩
          rw [discover, if_neg ha]
          have hnf : ¬ ((!a.isFile) = true) := by simp [hf]
          rw [if_neg hnf, if_pos hd]
        · have hyp2 : HasSymlink rest
              ∨ HasSeen base rest (hrefs ++ [documentHref base a.path])
              ∨ HasDupHref base rest := by
            rcases hyp with ⟨e, he, hsym⟩ | ⟨e, he, hef, hein⟩ |
                ⟨l1, e1, l2, e2, l3, hl, he1, he2, heq⟩
            · rcases List.mem_cons.mp he with rfl | hm
              · exact absurd hsym ha
              · exact Or.inl ⟨e, hm, hsym⟩
            · rcases List.mem_cons.mp he with rfl | hm
              · exact absurd hein hd
              · exact Or.inr (Or.inl ⟨e, hm, hef,
                  List.mem_append_left _ hein⟩)
            · rcases l1 with _ | ⟨b, l1⟩
              · obtain ⟨hae, hrest⟩ := List.cons.inj hl
                refine Or.inr (Or.inl ⟨e2, ?_, he2, ?_⟩)
                · rw [hrest]
                  exact List.mem_append_right _ (List.mem_cons_self _ _)
                · rw [← heq, ← hae]
                  exact List.mem_append_right _ (List.mem_singleton.mpr rfl)
              · obtain ⟨hab, hrest⟩ := List.cons.inj hl
                exact Or.inr (Or.inr ⟨l1, e1, l2, e2, l3, hrest, he1,
                  he2, heq⟩)
          obtain ⟨err, herr⟩ := ih (hrefs ++ [documentHref base a.path])
            (if isHtmlPath a.path then docs ++ [a.path] else docs) hyp2
          refine ⟨err, ?_⟩
          rw [discover, if_neg ha]
          have hnf : ¬ ((!a.isFile) = true) := by simp [hf]
          rw [if_neg hnf, if_neg hd]
          exact herr
      · have hyp2 : HasSymlink rest ∨ HasSeen base rest hrefs
            ∨ HasDupHref base rest := by
          rcases hyp with ⟨e, he, hsym⟩ | ⟨e, he, hef, hein⟩ |
              ⟨l1, e1, l2, e2, l3, hl, he1, he2, heq⟩
          · rcases List.mem_cons.mp he with rfl | hm
            · exact absurd hsym ha
            · exact Or.inl ⟨e, hm, hsym⟩
          · rcases List.mem_cons.mp he with rfl | hm
            · exact absurd hef hf
            · exact Or.inr (Or.inl ⟨e, hm, hef, hein⟩)
          · rcases l1 with _ | ⟨b, l1⟩
            · obtain ⟨hae, _⟩ := List.cons.inj hl
              rw [← hae] at he1
              exact absurd he1 hf
            · obtain ⟨hab, hrest⟩ := List.cons.inj hl
              exact Or.inr (Or.inr ⟨l1, e1, l2, e2, l3, hrest, he1,
                he2, heq⟩)
        obtain ⟨err, herr⟩ := ih hrefs docs hyp2
        refine ⟨err, ?_⟩
        rw [discover, if_neg ha]
        have hnf : (!a.isFile) = true := by simp [hf]
        rw [if_pos hnf]
        exact herr

/-- C6.  Encountering a symlink anywhere during discovery, or two
distinct files that resolve to the same document href, terminates the
run with a fatal error carrying the offending path, before any
extraction, classification or report emission. -/
theorem discovery_fatal (check gh : Bool) (base : Str)
    (entries : List DirEntry) (linksOf : Str → List Link)
    (pmap : List (Fp × List Str))
    (hbad : HasSymlink entries ∨ HasDupHref base entries) :
    ∃ err, runHyperlink check gh base entries linksOf pmap =
      .error err := by
  have hyp : HasSymlink entries ∨ HasSeen base entries []
      ∨ HasDupHref base entries := by
    rcases hbad with h1 | h2
    · exact Or.inl h1
    · exact Or.inr (Or.inr h2)
  obtain ⟨err, herr⟩ := discover_error_aux base entries [] [] hyp
  refine ⟨err, ?_⟩
  rw [runHyperlink, herr]

theorem discovery_fatal_witness :
    (HasSymlink [DirEntry.mk [97] true false]
      ∨ HasDupHref [] [DirEntry.mk [97] true false])
    ∧ ∃ err, runHyperlink false false [] [DirEntry.mk [97] true false]
        (fun _ => []) [] = .error err :=
  ⟨Or.inl ⟨DirEntry.mk [97] true false, by decide, rfl⟩,
    discovery_fatal false false [] [DirEntry.mk [97] true false]
      (fun _ => []) []
      (Or.inl ⟨DirEntry.mk [97] true false, by decide, rfl⟩)⟩

/-! ## Interner model (`src/interner.rs`)

`StringInterner` holds a bump arena and a dedup set of `&'static str`
keys pointing into it (interner.rs:6-10).  We embed the arena as the
list of interned strings in allocation order; a handle (a stable arena
reference) is embedded as the index of its string in that list, and two
handles are identical iff the indices are equal. -/

theorem internLookup_some (s : Str) :
    ∀ (σ : List Str) (i : Nat), internLookup σ s = some i → σ[i]? = some s := by
  intro σ
  induction σ with
  | nil => intro i h; cases h
  | cons t rest ih =>
    intro i h
    rw [internLookup] at h
    by_cases ht : t = s
    · rw [if_pos ht] at h
      cases h
      rw [ht]
      simp
    · rw [if_neg ht] at h
      rcases hl : internLookup rest s with _ | k
      · rw [hl] at h; cases h
      · rw [hl] at h
        cases h
        show (t :: rest)[k + 1]? = some s
        rw [List.getElem?_cons_succ]
        exact ih k hl

theorem internLookup_none (s : Str) :
    ∀ (σ : List Str), internLookup σ s = none → s ∉ σ := by
  intro σ
  induction σ with
  | nil => intro _ h; exact List.not_mem_nil s h
  | cons t rest ih =>
    intro h hm
    rw [internLookup] at h
    by_cases ht : t = s
    · rw [if_pos ht] at h; cases h
    · rw [if_neg ht] at h
      rcases List.mem_cons.mp hm with rfl | hm2
      · exact ht rfl
      · rcases hl : internLookup rest s with _ | k
        · exact ih hl hm2
        · rw [hl] at h; cases h

theorem internString_facts (σ : List Str) (s : Str) (hn : σ.Nodup) :
    (internString σ s).1.Nodup
    ∧ (∃ t, (internString σ s).1 = σ ++ t)
    ∧ (internString σ s).1[(internString σ s).2]? = some s := by
  rw [internString]
  rcases hl : internLookup σ s with _ | k
  · have hnotmem := internLookup_none s σ hl
    refine ⟨?_, ⟨[s], rfl⟩, ?_⟩
    · rw [← List.concat_eq_append]
      exact List.Nodup.concat hnotmem hn
    · show (σ ++ [s])[σ.length]? = some s
      rw [List.getElem?_append_right (le_refl _)]
      simp
  · exact ⟨hn, ⟨[], by simp⟩, internLookup_some s σ k hl⟩

theorem internAll_run (l : List Str) :
    ∀ (σ : List Str), σ.Nodup →
    (internAll σ l).Nodup
    ∧ (∃ t, internAll σ l = σ ++ t)
    ∧ (∀ (i a : Nat) (s : Str), (internHandles σ l)[i]? = some a →
        l[i]? = some s → (internAll σ l)[a]? = some s) := by
  induction l with
  | nil =>
    intro σ hn
    refine ⟨hn, ⟨[], by simp [internAll]⟩, ?_⟩
    intro i a s ha _
    cases ha
  | cons s0 rest ih =>
    intro σ hn
    obtain ⟨hn2, ⟨t2, ht2⟩, hres⟩ := internString_facts σ s0 hn
    obtain ⟨ihn, ⟨t3, ht3⟩, ihh⟩ := ih (internString σ s0).1 hn2
    have hall : internAll σ (s0 :: rest) =
        internAll (internString σ s0).1 rest := rfl
    refine ⟨by rw [hall]; exact ihn, ?_, ?_⟩
    · refine ⟨t2 ++ t3, ?_⟩
      rw [hall, ht3, ht2, List.append_assoc]
    · intro i a s ha hs
      rcases i with _ | n
      · rw [internHandles] at ha
        rw [List.getElem?_cons_zero] at ha hs
        cases ha
        cases hs
        rw [hall, ht3, List.getElem?_append]
        obtain ⟨hlt, hget⟩ := List.getElem?_eq_some_iff.mp hres
        rw [if_pos hlt]
        exact hres
      · rw [internHandles, List.getElem?_cons_succ] at ha
        rw [List.getElem?_cons_succ] at hs
        rw [hall]
        exact ihh n a s ha hs

/-- C10.  On one `StringInterner`, two `intern_string` calls return
identical handles iff their arguments are byte-wise equal; each returned
handle denotes a string byte-equal to its argument, and remains valid
with the same bytes for the remaining lifetime of the interner (here:
in the final arena after all calls). -/
theorem interner_contract (l : List Str) (i j a b : Nat) (s s2 : Str)
    (hA : (internHandles [] l)[i]? = some a)
    (hB : (internHandles [] l)[j]? = some b)
    (hS : l[i]? = some s) (hS2 : l[j]? = some s2) :
    (a = b ↔ s = s2) ∧ (internAll [] l)[a]? = some s := by
  obtain ⟨hnd, _, hres⟩ := internAll_run l [] List.nodup_nil
  have hra : (internAll [] l)[a]? = some s := hres i a s hA hS
  have hrb : (internAll [] l)[b]? = some s2 := hres j b s2 hB hS2
  refine ⟨⟨?_, ?_⟩, hra⟩
  · intro hab
    rw [hab, hrb] at hra
    exact (Option.some_inj.mp hra).symm
  · intro hss
    rw [← hss] at hrb
    obtain ⟨hlta, hgeta⟩ := List.getElem?_eq_some_iff.mp hra
    obtain ⟨hltb, hgetb⟩ := List.getElem?_eq_some_iff.mp hrb
    exact (List.Nodup.getElem_inj_iff hnd).mp (by rw [hgeta, hgetb])

theorem interner_contract_witness :
    ((internHandles [] [[97], [98], [97]])[0]? = some 0)
    ∧ ((internHandles [] [[97], [98], [97]])[2]? = some 0)
    ∧ (([[97], [98], [97]] : List Str)[0]? = some [97])
    ∧ (([[97], [98], [97]] : List Str)[2]? = some [97])
    ∧ ((0 = 0 ↔ ([97] : Str) = [97])
      ∧ (internAll [] [[97], [98], [97]])[0]? = some [97]) :=
  ⟨rfl, rfl, rfl, rfl,
    interner_contract [[97], [98], [97]] 0 2 0 0 [97] [97] rfl rfl rfl rfl⟩

theorem childGet_sizeOf [SizeOf T] (k : Nat) (c : Trie T) :
    ∀ children : List (Nat × Trie T),
    childGet children k = some c → sizeOf c < sizeOf children := by
  intro children
  induction children with
  | nil => intro h; cases h
  | cons kt rest ih =>
    intro h
    rw [childGet] at h
    by_cases hk : k = kt.1
    · rw [if_pos hk] at h
      cases h
      obtain ⟨k2, t2⟩ := kt
      simp
      omega
    · rw [if_neg hk] at h
      have := ih h
      obtain ⟨k2, t2⟩ := kt
      simp
      omega

theorem trieScan_le (k : List Nat) :
    ∀ l : List Nat,
    (trieScan k l).1 ≤ k.length ∧ (trieScan k l).1 ≤ l.length := by
  induction k with
  | nil => intro l; cases l <;> simp [trieScan]
  | cons a k ih =>
    intro l
    cases l with
    | nil => simp [trieScan]
    | cons b l =>
      by_cases hab : a = b
      · obtain ⟨h1, h2⟩ := ih l
        simp only [trieScan, hab, if_pos]
        constructor <;> simp <;> omega
      · simp [trieScan, hab]

theorem trieScan_take (k : List Nat) :
    ∀ l : List Nat,
    k.take (trieScan k l).1 = l.take (trieScan k l).1 := by
  induction k with
  | nil => intro l; cases l <;> simp [trieScan]
  | cons a k ih =>
    intro l
    cases l with
    | nil => simp [trieScan]
    | cons b l =>
      by_cases hab : a = b
      · simp only [trieScan, hab, if_pos]
        rw [List.take_succ_cons, List.take_succ_cons, ih l]
      · simp [trieScan, hab]

theorem trieScan_eq_label (k : List Nat) :
    ∀ l : List Nat, (trieScan k l).1 = l.length →
    (trieScan k l).2 = false := by
  induction k with
  | nil => intro l _; cases l <;> rfl
  | cons a k ih =>
    intro l
    cases l with
    | nil => intro _; rfl
    | cons b l =>
      intro h
      by_cases hab : a = b
      · simp only [trieScan, hab, if_pos] at h ⊢
        exact ih l (by simpa using h)
      · simp [trieScan, hab] at h

theorem trieScan_append (p s1 s2 : List Nat) :
    trieScan (p ++ s1) (p ++ s2) =
      (p.length + (trieScan s1 s2).1, (trieScan s1 s2).2) := by
  induction p with
  | nil => simp
  | cons a p ih =>
    have hstep : trieScan (a :: (p ++ s1)) (a :: (p ++ s2)) =
        ((trieScan (p ++ s1) (p ++ s2)).1 + 1,
          (trieScan (p ++ s1) (p ++ s2)).2) := by
      simp [trieScan]
    rw [show (a :: p ++ s1 : List Nat) = a :: (p ++ s1) from rfl,
      show (a :: p ++ s2 : List Nat) = a :: (p ++ s2) from rfl]
    rw [hstep, ih]
    simp only [Prod.mk.injEq, List.length_cons]
    constructor
    · omega
    · trivial

theorem trieScan_self (k : List Nat) : trieScan k k = (k.length, false) := by
  have h := trieScan_append k [] []
  simpa using h

theorem trieScan_prefix_stable (k2 : List Nat) :
    ∀ l ext : List Nat, (trieScan k2 l).1 < l.length →
    trieScan k2 (l ++ ext) = trieScan k2 l := by
  induction k2 with
  | nil => intro l ext _; cases l <;> cases ext <;> simp [trieScan]
  | cons a k2 ih =>
    intro l ext h
    cases l with
    | nil => simp at h
    | cons b l =>
      by_cases hab : a = b
      · have h2 : (trieScan k2 l).1 < l.length := by
          simp only [trieScan, hab, if_pos] at h
          simp at h
          omega
        show trieScan (a :: (k2 : List Nat)) (b :: (l ++ ext)) = _
        simp only [trieScan, hab, if_pos, ih l ext h2]
      · show trieScan (a :: (k2 : List Nat)) (b :: (l ++ ext)) = _
        simp [trieScan, hab]

theorem childGet_mem (k : Nat) (c : Trie T) :
    ∀ m : List (Nat × Trie T), childGet m k = some c → (k, c) ∈ m := by
  intro m
  induction m with
  | nil => intro h; cases h
  | cons kt rest ih =>
    intro h
    rw [childGet] at h
    by_cases hk : k = kt.1
    · rw [if_pos hk] at h
      cases h
      rw [hk]
      simp
    · rw [if_neg hk] at h
      exact List.mem_cons_of_mem _ (ih h)

theorem childSet_mem (k : Nat) (t : Trie T) (kc : Nat × Trie T) :
    ∀ m : List (Nat × Trie T),
    kc ∈ childSet m k t → kc ∈ m ∨ kc = (k, t) := by
  intro m
  induction m with
  | nil =>
    intro h
    rw [childSet] at h
    exact Or.inr (List.mem_singleton.mp h)
  | cons kt rest ih =>
    intro h
    rw [childSet] at h
    by_cases hk : k = kt.1
    · rw [if_pos hk] at h
      rcases List.mem_cons.mp h with rfl | hm
      · exact Or.inr (by rw [hk])
      · exact Or.inl (List.mem_cons_of_mem _ hm)
    · rw [if_neg hk] at h
      rcases List.mem_cons.mp h with rfl | hm
      · exact Or.inl (by simp)
      · rcases ih hm with h1 | h2
        · exact Or.inl (List.mem_cons_of_mem _ h1)
        · exact Or.inr h2

theorem childGet_childSet (k k2 : Nat) (t : Trie T) :
    ∀ m : List (Nat × Trie T),
    childGet (childSet m k t) k2 =
      if k2 = k then some t else childGet m k2 := by
  intro m
  induction m with
  | nil =>
    rw [childSet, childGet]
    by_cases h2 : k2 = k <;> simp [h2, childGet]
  | cons kt rest ih =>
    rw [childSet]
    by_cases hk : k = kt.1
    · rw [if_pos hk, childGet, childGet]
      by_cases h2 : k2 = kt.1
      · have h2k : k2 = k := by rw [h2, hk]
        have hks : kt.1 = k := hk.symm
        simp [h2, h2k, hks]
      · have h2k : ¬ (k2 = k) := by rw [hk]; exact h2
        have hks : kt.1 = k := hk.symm
        simp [h2, h2k, hks]
    · rw [if_neg hk, childGet, childGet]
      by_cases h2 : k2 = kt.1
      · have h2k : ¬ (k2 = k) := by
          rw [h2]
          exact fun hh => hk hh.symm
        have hks : ¬ (kt.1 = k) := fun hh => hk hh.symm
        simp [h2, h2k, hks]
      · simp [h2, ih]

theorem Trie.get_nil [SizeOf T] (val : Option T) (lab : List Nat)
    (lo bi : List (Nat × Trie T)) :
    Trie.get (.mk val lab lo bi) [] = val := by
  simp [Trie.get]

theorem Trie.get_child_none [SizeOf T] (val : Option T) (lab : List Nat)
    (lo bi : List (Nat × Trie T)) (key : List Nat) (hk : ¬ key = [])
    (hcg : childGet (if (trieScan key lab).2 then lo else bi)
      (trieScan key lab).1 = none) :
    Trie.get (.mk val lab lo bi) key = none := by
  simp only [Trie.get]
  rw [if_neg hk]
  split
  · rfl
  next child heq =>
    rw [hcg] at heq
    cases heq

theorem Trie.get_child_some [SizeOf T] (val : Option T) (lab : List Nat)
    (lo bi : List (Nat × Trie T)) (key : List Nat) (c : Trie T)
    (hk : ¬ key = [])
    (hcg : childGet (if (trieScan key lab).2 then lo else bi)
      (trieScan key lab).1 = some c) :
    Trie.get (.mk val lab lo bi) key =
      c.get (key.drop (trieScan key lab).1) := by
  simp only [Trie.get]
  rw [if_neg hk]
  split
  next heq =>
    rw [hcg] at heq
    cases heq
  next child heq =>
    rw [hcg] at heq
    injection heq with heq2
    subst heq2
    rfl

theorem Trie.get_pure_node [SizeOf T] (cv : Option T) (s : List Nat) :
    Trie.get (.mk cv [] [] []) s = if s = [] then cv else none := by
  by_cases hs : s = []
  · rw [if_pos hs, hs, Trie.get_nil]
  · rw [if_neg hs]
    apply Trie.get_child_none cv [] [] [] s hs
    rw [ite_self]
    rfl

theorem get_mk_eq_of_route [SizeOf T] (val val2 : Option T)
    (lab : List Nat) (lo bi lo2 bi2 : List (Nat × Trie T)) (k2 : List Nat)
    (hk2 : ¬ k2 = [])
    (hroute : childGet (if (trieScan k2 lab).2 then lo2 else bi2)
        (trieScan k2 lab).1 =
      childGet (if (trieScan k2 lab).2 then lo else bi)
        (trieScan k2 lab).1) :
    Trie.get (.mk val2 lab lo2 bi2) k2 = Trie.get (.mk val lab lo bi) k2 := by
  rcases hcg : childGet (if (trieScan k2 lab).2 then lo else bi)
      (trieScan k2 lab).1 with _ | c
  · rw [Trie.get_child_none val lab lo bi k2 hk2 hcg,
      Trie.get_child_none val2 lab lo2 bi2 k2 hk2 (hroute.trans hcg)]
  · rw [Trie.get_child_some val lab lo bi k2 c hk2 hcg,
      Trie.get_child_some val2 lab lo2 bi2 k2 c hk2 (hroute.trans hcg)]

theorem get_trieSingleton [SizeOf T] (nk : List Nat) (v : T) (s : List Nat) :
    (trieSingleton nk v).get s = if s = nk then some v else none := by
  rw [trieSingleton]
  by_cases hnk : nk = []
  · rw [if_pos hnk, Trie.get_pure_node, hnk]
  · rw [if_neg hnk]
    by_cases hs : s = []
    · rw [hs, Trie.get_nil]
      have hne : ¬ (([] : List Nat) = nk) := fun hh => hnk hh.symm
      rw [if_neg hne]
    · by_cases hsnk : s = nk
      · subst hsnk
        rw [if_pos rfl]
        have hscan := trieScan_self s
        have hcg : childGet
            (if (trieScan s s).2 then ([] : List (Nat × Trie T))
              else [(s.length, .mk (some v) [] [] [])])
            (trieScan s s).1 =
            some (.mk (some v) [] [] []) := by
          rw [hscan]
          simp [childGet]
        rw [Trie.get_child_some none s [] [(s.length, .mk (some v) [] [] [])]
          s (.mk (some v) [] [] []) hs hcg]
        rw [hscan]
        simp [Trie.get_nil]
      · rw [if_neg hsnk]
        rcases he : (trieScan s nk).2
        · by_cases hm : (trieScan s nk).1 = nk.length
          · have hcg : childGet
                (if (trieScan s nk).2 then ([] : List (Nat × Trie T))
                  else [(nk.length, .mk (some v) [] [] [])])
                (trieScan s nk).1 = some (.mk (some v) [] [] []) := by
              rw [he, hm]
              simp [childGet]
            rw [Trie.get_child_some none nk []
              [(nk.length, .mk (some v) [] [] [])] s
              (.mk (some v) [] [] []) hs hcg]
            rw [Trie.get_pure_node]
            have hdrop : ¬ (s.drop (trieScan s nk).1 = []) := by
              intro hd
              have htad := List.take_append_drop (trieScan s nk).1 s
              rw [hd, List.append_nil] at htad
              have htk := trieScan_take s nk
              rw [htad, hm, List.take_length] at htk
              exact hsnk htk
            rw [if_neg hdrop]
          · apply Trie.get_child_none none nk []
              [(nk.length, .mk (some v) [] [] [])] s hs
            rw [he]
            simp [childGet, hm]
        · apply Trie.get_child_none none nk []
            [(nk.length, .mk (some v) [] [] [])] s hs
          rw [he]
          rfl

theorem trieSingleton_inv (nk : List Nat) (v : T) :
    TrieInv (trieSingleton nk v) := by
  rw [trieSingleton]
  by_cases hnk : nk = []
  · rw [if_pos hnk]
    exact TrieInv.mk (by simp) (by simp) (by simp) (by simp) (by simp)
  · rw [if_neg hnk]
    refine TrieInv.mk (by simp) ?_ ?_ (by simp) ?_
    · intro kc hkc
      rw [List.mem_singleton] at hkc
      subst hkc
      exact le_refl _
    · intro c hc
      rw [List.mem_singleton] at hc
      injection hc with _ h2
      subst h2
      exact ⟨rfl, rfl, rfl⟩
    · intro kc hkc
      rw [List.mem_singleton] at hkc
      subst hkc
      exact TrieInv.mk (by simp) (by simp) (by simp) (by simp) (by simp)

theorem TriePure.inv {c : Trie T} (h : TriePure c) : TrieInv c := by
  obtain ⟨cv, cl, clo, cbi⟩ := c
  obtain ⟨h1, h2, h3⟩ := h
  subst h1; subst h2; subst h3
  exact TrieInv.mk (by simp) (by simp) (by simp) (by simp) (by simp)

theorem Trie.insert_nil [SizeOf T] (val : Option T) (lab : List Nat)
    (lo bi : List (Nat × Trie T)) (v : T) :
    Trie.insert (.mk val lab lo bi) [] v = (.mk (some v) lab lo bi, val) := by
  simp [Trie.insert]

theorem Trie.insert_caseb_some [SizeOf T] (val : Option T) (lab : List Nat)
    (lo bi : List (Nat × Trie T)) (key : List Nat) (v : T)
    (cv : Option T) (cl : List Nat) (clo cbi : List (Nat × Trie T))
    (hk : ¬ key = []) (hb : (trieScan key lab).1 = lab.length)
    (hd : (trieScan key lab).2 = false)
    (hcg : childGet bi key.length = some (.mk cv cl clo cbi)) :
    Trie.insert (.mk val lab lo bi) key v =
      (.mk val (lab ++ key.drop (trieScan key lab).1) lo
        (childSet bi key.length (.mk (some v) cl clo cbi)), cv) := by
  simp only [Trie.insert]
  rw [if_neg hk, if_pos hb, hd]
  simp [hcg]

theorem Trie.insert_caseb_none [SizeOf T] (val : Option T) (lab : List Nat)
    (lo bi : List (Nat × Trie T)) (key : List Nat) (v : T)
    (hk : ¬ key = []) (hb : (trieScan key lab).1 = lab.length)
    (hd : (trieScan key lab).2 = false)
    (hcg : childGet bi key.length = none) :
    Trie.insert (.mk val lab lo bi) key v =
      (.mk val (lab ++ key.drop (trieScan key lab).1) lo
        (childSet bi key.length (.mk (some v) [] [] [])), none) := by
  simp only [Trie.insert]
  rw [if_neg hk, if_pos hb, hd]
  simp [hcg]

theorem Trie.insert_mismatch_some [SizeOf T] (val : Option T)
    (lab : List Nat) (lo bi : List (Nat × Trie T)) (key : List Nat)
    (v : T) (c : Trie T)
    (hk : ¬ key = []) (hb : ¬ (trieScan key lab).1 = lab.length)
    (hcg : childGet (if (trieScan key lab).2 then lo else bi)
      (trieScan key lab).1 = some c) :
    Trie.insert (.mk val lab lo bi) key v =
      ((if (trieScan key lab).2 then
          Trie.mk val lab
            (childSet lo (trieScan key lab).1
              (c.insert (key.drop (trieScan key lab).1) v).1) bi
        else
          Trie.mk val lab lo
            (childSet bi (trieScan key lab).1
              (c.insert (key.drop (trieScan key lab).1) v).1)),
        (c.insert (key.drop (trieScan key lab).1) v).2) := by
  simp only [Trie.insert]
  rw [if_neg hk, if_neg hb]
  split
  next child heq =>
    rw [hcg] at heq
    injection heq with heq2
    subst heq2
    rfl
  next heq =>
    rw [hcg] at heq
    cases heq

theorem Trie.insert_mismatch_none [SizeOf T] (val : Option T)
    (lab : List Nat) (lo bi : List (Nat × Trie T)) (key : List Nat)
    (v : T)
    (hk : ¬ key = []) (hb : ¬ (trieScan key lab).1 = lab.length)
    (hcg : childGet (if (trieScan key lab).2 then lo else bi)
      (trieScan key lab).1 = none) :
    Trie.insert (.mk val lab lo bi) key v =
      ((if (trieScan key lab).2 then
          Trie.mk val lab
            (childSet lo (trieScan key lab).1
              (trieSingleton (key.drop (trieScan key lab).1) v)) bi
        else
          Trie.mk val lab lo
            (childSet bi (trieScan key lab).1
              (trieSingleton (key.drop (trieScan key lab).1) v))),
        none) := by
  simp only [Trie.insert]
  rw [if_neg hk, if_neg hb]
  split
  next child heq =>
    rw [hcg] at heq
    cases heq
  next heq =>
    rfl

theorem trieScan_nil (l : List Nat) : trieScan [] l = (0, false) := by
  cases l <;> rfl

theorem childGet_none_of_ne (m : List (Nat × Trie T)) (k : Nat)
    (h : ∀ kc ∈ m, ¬ kc.1 = k) : childGet m k = none := by
  rcases hcg : childGet m k with _ | c
  · rfl
  · exact absurd rfl (h _ (childGet_mem k c m hcg))

theorem scan_drop_eq_key_eq (k k2 lab : List Nat)
    (hm : (trieScan k2 lab).1 = (trieScan k lab).1)
    (hd : k2.drop (trieScan k2 lab).1 = k.drop (trieScan k lab).1) :
    k2 = k := by
  have h1 := trieScan_take k2 lab
  have h2 := trieScan_take k lab
  have h3 : k2.take (trieScan k2 lab).1 = k.take (trieScan k lab).1 := by
    rw [h1, h2, hm]
  calc k2 = k2.take (trieScan k2 lab).1 ++ k2.drop (trieScan k2 lab).1 :=
        (List.take_append_drop _ _).symm
    _ = k.take (trieScan k lab).1 ++ k.drop (trieScan k lab).1 := by
        rw [h3, hd]
    _ = k := List.take_append_drop _ _

theorem trie_insert_caseb_some_spec [SizeOf T] (val : Option T)
    (lab : List Nat) (lo bi : List (Nat × Trie T)) (k : List Nat)
    (v : T) (c : Trie T)
    (hloK : ∀ kc ∈ lo, kc.1 < lab.length)
    (hbiK : ∀ kc ∈ bi, kc.1 ≤ lab.length)
    (hpure : ∀ c2 : Trie T, (lab.length, c2) ∈ bi → TriePure c2)
    (hloI : ∀ kc ∈ lo, TrieInv kc.2)
    (hbiI : ∀ kc ∈ bi, TrieInv kc.2)
    (hk : ¬ k = []) (hb : (trieScan k lab).1 = lab.length)
    (hcg : childGet bi k.length = some c) :
    TrieInv ((Trie.mk val lab lo bi).insert k v).1 ∧
    ((Trie.mk val lab lo bi).insert k v).2 = (Trie.mk val lab lo bi).get k ∧
    (∀ k2 : List Nat, ((Trie.mk val lab lo bi).insert k v).1.get k2 =
      if k2 = k then some v else (Trie.mk val lab lo bi).get k2) := by
  have hd : (trieScan k lab).2 = false := trieScan_eq_label k lab hb
  have hlabk : lab.length ≤ k.length := by
    have h1 := (trieScan_le k lab).1
    rw [hb] at h1
    exact h1
  have hkl : k.length = lab.length :=
    le_antisymm (hbiK _ (childGet_mem k.length c bi hcg)) hlabk
  have hmem := childGet_mem k.length c bi hcg
  rw [hkl] at hmem
  have hp := hpure c hmem
  obtain ⟨cv, cl, clo, cbi⟩ := c
  obtain ⟨hp1, hp2, hp3⟩ := hp
  subst hp1; subst hp2; subst hp3
  have hpref : k.take lab.length = lab := by
    have htk := trieScan_take k lab
    rw [hb, List.take_length] at htk
    exact htk
  have hklab : k = lab := by
    rw [← hpref, ← hkl, List.take_length]
  have hdrop : k.drop (trieScan k lab).1 = [] := by
    rw [hb, ← hkl, List.drop_length]
  have hins : (Trie.mk val lab lo bi).insert k v =
      (Trie.mk val lab lo
        (childSet bi k.length (Trie.mk (some v) [] [] [])), cv) := by
    rw [Trie.insert_caseb_some val lab lo bi k v cv [] [] [] hk hb hd hcg,
      hdrop, List.append_nil]
  rw [hins]
  refine ⟨?_, ?_, ?_⟩
  · refine TrieInv.mk hloK ?_ ?_ hloI ?_
    · intro kc hkc
      rcases childSet_mem k.length _ kc bi hkc with hm | he
      · exact hbiK kc hm
      · rw [he]
        exact le_of_eq hkl
    · intro c2 hc2
      rcases childSet_mem k.length _ (lab.length, c2) bi hc2 with hm | he
      · exact hpure c2 hm
      · injection he with _ he2
        subst he2
        exact ⟨rfl, rfl, rfl⟩
    · intro kc hkc
      rcases childSet_mem k.length _ kc bi hkc with hm | he
      · exact hbiI kc hm
      · rw [he]
        exact TriePure.inv ⟨rfl, rfl, rfl⟩
  · have hcg0 : childGet (if (trieScan k lab).2 then lo else bi)
        (trieScan k lab).1 = some (Trie.mk cv [] [] []) := by
      rw [hd, hb, ← hkl]
      simpa using hcg
    rw [Trie.get_child_some val lab lo bi k _ hk hcg0, hdrop,
      Trie.get_nil]
  · intro k2
    show (Trie.mk val lab lo
        (childSet bi k.length (Trie.mk (some v) [] [] []))).get k2 =
      if k2 = k then some v else (Trie.mk val lab lo bi).get k2
    by_cases hk2 : k2 = k
    · subst hk2
      rw [if_pos rfl]
      have hcg1 : childGet (if (trieScan k2 lab).2 then lo
          else childSet bi k2.length (Trie.mk (some v) [] [] []))
          (trieScan k2 lab).1 = some (Trie.mk (some v) [] [] []) := by
        rw [hd, hb, ← hkl]
        simp [childGet_childSet]
      rw [Trie.get_child_some val lab lo _ k2 _ hk hcg1, hdrop,
        Trie.get_nil]
    · rw [if_neg hk2]
      by_cases hk2n : k2 = []
      · subst hk2n
        rw [Trie.get_nil, Trie.get_nil]
      · by_cases hslot : (trieScan k2 lab).2 = false ∧
            (trieScan k2 lab).1 = k.length
        · obtain ⟨he2, hm2⟩ := hslot
          have hsuf : ¬ (k2.drop (trieScan k2 lab).1 = []) := by
            intro hdp
            have htad := List.take_append_drop (trieScan k2 lab).1 k2
            rw [hdp, List.append_nil] at htad
            have htk := trieScan_take k2 lab
            rw [htad, hm2, hkl, List.take_length] at htk
            exact hk2 (htk.trans hklab.symm)
          have hcgO : childGet (if (trieScan k2 lab).2 then lo else bi)
              (trieScan k2 lab).1 = some (Trie.mk cv [] [] []) := by
            rw [he2, hm2]
            simpa using hcg
          have hcgN : childGet (if (trieScan k2 lab).2 then lo
              else childSet bi k.length (Trie.mk (some v) [] [] []))
              (trieScan k2 lab).1 =
              some (Trie.mk (some v) [] [] []) := by
            rw [he2, hm2]
            simp [childGet_childSet]
          rw [Trie.get_child_some val lab lo bi k2 _ hk2n hcgO,
            Trie.get_child_some val lab lo _ k2 _ hk2n hcgN,
            Trie.get_pure_node, Trie.get_pure_node, if_neg hsuf,
            if_neg hsuf]
        · apply get_mk_eq_of_route val val lab lo bi lo _ k2 hk2n
          rcases he2 : (trieScan k2 lab).2
          · have hm2 : ¬ (trieScan k2 lab).1 = k.length :=
              fun hh => hslot ⟨he2, hh⟩
            simp [he2, childGet_childSet, hm2]
          · simp [he2]

theorem trie_insert_caseb_none_spec [SizeOf T] (val : Option T)
    (lab : List Nat) (lo bi : List (Nat × Trie T)) (k : List Nat)
    (v : T)
    (hloK : ∀ kc ∈ lo, kc.1 < lab.length)
    (hbiK : ∀ kc ∈ bi, kc.1 ≤ lab.length)
    (hpure : ∀ c2 : Trie T, (lab.length, c2) ∈ bi → TriePure c2)
    (hloI : ∀ kc ∈ lo, TrieInv kc.2)
    (hbiI : ∀ kc ∈ bi, TrieInv kc.2)
    (hk : ¬ k = []) (hb : (trieScan k lab).1 = lab.length)
    (hcg : childGet bi k.length = none) :
    TrieInv ((Trie.mk val lab lo bi).insert k v).1 ∧
    ((Trie.mk val lab lo bi).insert k v).2 = (Trie.mk val lab lo bi).get k ∧
    (∀ k2 : List Nat, ((Trie.mk val lab lo bi).insert k v).1.get k2 =
      if k2 = k then some v else (Trie.mk val lab lo bi).get k2) := by
  have hd : (trieScan k lab).2 = false := trieScan_eq_label k lab hb
  have hlabk : lab.length ≤ k.length := by
    have h1 := (trieScan_le k lab).1
    rw [hb] at h1
    exact h1
  have hpref : k.take lab.length = lab := by
    have htk := trieScan_take k lab
    rw [hb, List.take_length] at htk
    exact htk
  have hlabkk : lab ++ k.drop lab.length = k := by
    conv_rhs => rw [← List.take_append_drop lab.length k]
    rw [hpref]
  have hins : (Trie.mk val lab lo bi).insert k v =
      (Trie.mk val k lo
        (childSet bi k.length (Trie.mk (some v) [] [] [])), none) := by
    rw [Trie.insert_caseb_none val lab lo bi k v hk hb hd hcg, hb, hlabkk]
  rw [hins]
  refine ⟨?_, ?_, ?_⟩
  · refine TrieInv.mk ?_ ?_ ?_ hloI ?_
    · intro kc hkc
      have := hloK kc hkc
      omega
    · intro kc hkc
      rcases childSet_mem k.length _ kc bi hkc with hm | he
      · have := hbiK kc hm
        omega
      · rw [he]
    · intro c2 hc2
      rcases childSet_mem k.length _ (k.length, c2) bi hc2 with hm | he
      · have hkl2 : k.length = lab.length := le_antisymm (hbiK _ hm) hlabk
        rw [hkl2] at hm
        exact hpure c2 hm
      · injection he with _ he2
        subst he2
        exact ⟨rfl, rfl, rfl⟩
    · intro kc hkc
      rcases childSet_mem k.length _ kc bi hkc with hm | he
      · exact hbiI kc hm
      · rw [he]
        exact TriePure.inv ⟨rfl, rfl, rfl⟩
  · rcases hcgL : childGet bi lab.length with _ | c0
    · have hcg0 : childGet (if (trieScan k lab).2 then lo else bi)
          (trieScan k lab).1 = none := by
        rw [hd, hb]
        simpa using hcgL
      rw [Trie.get_child_none val lab lo bi k hk hcg0]
    · have hp := hpure c0 (childGet_mem lab.length c0 bi hcgL)
      obtain ⟨cv0, cl0, clo0, cbi0⟩ := c0
      obtain ⟨hp1, hp2, hp3⟩ := hp
      subst hp1; subst hp2; subst hp3
      have hcg0 : childGet (if (trieScan k lab).2 then lo else bi)
          (trieScan k lab).1 = some (Trie.mk cv0 [] [] []) := by
        rw [hd, hb]
        simpa using hcgL
      rw [Trie.get_child_some val lab lo bi k _ hk hcg0,
        Trie.get_pure_node]
      have hsuf : ¬ (k.drop (trieScan k lab).1 = []) := by
        intro hdp
        rw [hb] at hdp
        have hklab : k = lab := by rw [← hlabkk, hdp, List.append_nil]
        rw [hklab] at hcg
        rw [hcgL] at hcg
        simp at hcg
      rw [if_neg hsuf]
  · intro k2
    show (Trie.mk val k lo
        (childSet bi k.length (Trie.mk (some v) [] [] []))).get k2 =
      if k2 = k then some v else (Trie.mk val lab lo bi).get k2
    by_cases hk2 : k2 = k
    · subst hk2
      rw [if_pos rfl]
      have hcg1 : childGet (if (trieScan k2 k2).2 then lo
          else childSet bi k2.length (Trie.mk (some v) [] [] []))
          (trieScan k2 k2).1 = some (Trie.mk (some v) [] [] []) := by
        rw [trieScan_self]
        simp [childGet_childSet]
      rw [Trie.get_child_some val k2 lo _ k2 _ hk hcg1, trieScan_self]
      simp [Trie.get_pure_node]
    · rw [if_neg hk2]
      by_cases hk2n : k2 = []
      · subst hk2n
        rw [Trie.get_nil, Trie.get_nil]
      · by_cases hm : (trieScan k2 lab).1 < lab.length
        · have hstab : trieScan k2 k = trieScan k2 lab := by
            conv_lhs => rw [← hlabkk]
            exact trieScan_prefix_stable k2 lab (k.drop lab.length) hm
          rcases hcg2 : childGet (if (trieScan k2 lab).2 then lo else bi)
              (trieScan k2 lab).1 with _ | c2
          · have hcg2n : childGet (if (trieScan k2 k).2 then lo
                else childSet bi k.length (Trie.mk (some v) [] [] []))
                (trieScan k2 k).1 = none := by
              rw [hstab]
              rcases he2 : (trieScan k2 lab).2
              · have hm2ne : ¬ ((trieScan k2 lab).1 = k.length) := by
                  omega
                rw [he2] at hcg2
                simp only [Bool.false_eq_true, if_false] at hcg2 ⊢
                rw [childGet_childSet, if_neg hm2ne]
                exact hcg2
              · rw [he2] at hcg2
                simpa using hcg2
            rw [Trie.get_child_none val lab lo bi k2 hk2n hcg2,
              Trie.get_child_none val k lo _ k2 hk2n hcg2n]
          · have hcg2n : childGet (if (trieScan k2 k).2 then lo
                else childSet bi k.length (Trie.mk (some v) [] [] []))
                (trieScan k2 k).1 = some c2 := by
              rw [hstab]
              rcases he2 : (trieScan k2 lab).2
              · have hm2ne : ¬ ((trieScan k2 lab).1 = k.length) := by
                  omega
                rw [he2] at hcg2
                simp only [Bool.false_eq_true, if_false] at hcg2 ⊢
                rw [childGet_childSet, if_neg hm2ne]
                exact hcg2
              · rw [he2] at hcg2
                simpa using hcg2
            rw [Trie.get_child_some val lab lo bi k2 c2 hk2n hcg2,
              Trie.get_child_some val k lo _ k2 c2 hk2n hcg2n, hstab]
        · have hm2 : (trieScan k2 lab).1 = lab.length :=
            le_antisymm (trieScan_le k2 lab).2 (not_lt.mp hm)
          have he2 : (trieScan k2 lab).2 = false :=
            trieScan_eq_label k2 lab hm2
          have hpref2 : k2.take lab.length = lab := by
            have htk := trieScan_take k2 lab
            rw [hm2, List.take_length] at htk
            exact htk
          have hk2split : lab ++ k2.drop lab.length = k2 := by
            conv_rhs => rw [← List.take_append_drop lab.length k2]
            rw [hpref2]
          have hscan2 : trieScan k2 k =
              (lab.length +
                (trieScan (k2.drop lab.length) (k.drop lab.length)).1,
               (trieScan (k2.drop lab.length) (k.drop lab.length)).2) := by
            conv_lhs => rw [← hk2split, ← hlabkk]
            exact trieScan_append lab _ _
          by_cases hsnil : k2.drop lab.length = []
          · have hk2lab : k2 = lab := by
              rw [← hk2split, hsnil, List.append_nil]
            by_cases hkl2 : lab.length = k.length
            · exfalso
              have hdk : k.drop lab.length = [] := by
                rw [hkl2, List.drop_length]
              have hkeq : k = lab := by
                rw [← hlabkk, hdk, List.append_nil]
              exact hk2 (hk2lab.trans hkeq.symm)
            · have hscan2' : trieScan k2 k = (lab.length, false) := by
                rw [hscan2, hsnil, trieScan_nil]
                rfl
              have hcgN : childGet (if (trieScan k2 k).2 then lo
                  else childSet bi k.length (Trie.mk (some v) [] [] []))
                  (trieScan k2 k).1 = childGet bi lab.length := by
                rw [hscan2']
                simp [childGet_childSet, hkl2]
              have hcgO : childGet (if (trieScan k2 lab).2 then lo else bi)
                  (trieScan k2 lab).1 = childGet bi lab.length := by
                rw [he2, hm2]
                simp
              rcases hcgL : childGet bi lab.length with _ | c0
              · rw [Trie.get_child_none val k lo _ k2 hk2n
                    (hcgN.trans hcgL),
                  Trie.get_child_none val lab lo bi k2 hk2n
                    (hcgO.trans hcgL)]
              · rw [Trie.get_child_some val k lo _ k2 c0 hk2n
                    (hcgN.trans hcgL),
                  Trie.get_child_some val lab lo bi k2 c0 hk2n
                    (hcgO.trans hcgL),
                  hscan2', hm2]
          · have hold : Trie.get (Trie.mk val lab lo bi) k2 = none := by
              rcases hcgL : childGet bi lab.length with _ | c0
              · apply Trie.get_child_none val lab lo bi k2 hk2n
                rw [he2, hm2]
                simpa using hcgL
              · have hp := hpure c0 (childGet_mem lab.length c0 bi hcgL)
                obtain ⟨cv0, cl0, clo0, cbi0⟩ := c0
                obtain ⟨hp1, hp2, hp3⟩ := hp
                subst hp1; subst hp2; subst hp3
                have hcgO : childGet
                    (if (trieScan k2 lab).2 then lo else bi)
                    (trieScan k2 lab).1 = some (Trie.mk cv0 [] [] []) := by
                  rw [he2, hm2]
                  simpa using hcgL
                rw [Trie.get_child_some val lab lo bi k2 _ hk2n hcgO,
                  Trie.get_pure_node, hm2, if_neg hsnil]
            rw [hold]
            rcases he3 : (trieScan (k2.drop lab.length)
                (k.drop lab.length)).2
            · by_cases hm2k : lab.length +
                  (trieScan (k2.drop lab.length) (k.drop lab.length)).1 =
                  k.length
              · have hcgN : childGet (if (trieScan k2 k).2 then lo
                    else childSet bi k.length (Trie.mk (some v) [] [] []))
                    (trieScan k2 k).1 =
                    some (Trie.mk (some v) [] [] []) := by
                  rw [hscan2, he3]
                  simp [childGet_childSet, hm2k]
                rw [Trie.get_child_some val k lo _ k2 _ hk2n hcgN,
                  Trie.get_pure_node]
                have hn3 : (trieScan (k2.drop lab.length)
                    (k.drop lab.length)).1 = (k.drop lab.length).length := by
                  rw [List.length_drop]
                  omega
                have htake3 := trieScan_take (k2.drop lab.length)
                  (k.drop lab.length)
                have hdd : ∀ j : Nat, k2.drop (lab.length + j) =
                    (k2.drop lab.length).drop j := by
                  intro j
                  conv_lhs => rw [← hk2split]
                  exact List.drop_append j
                have hd0' : k2.drop (trieScan k2 k).1 =
                    (k2.drop lab.length).drop
                      (trieScan (k2.drop lab.length)
                        (k.drop lab.length)).1 := by
                  rw [hscan2]
                  exact hdd _
                have hsufne : ¬ (k2.drop (trieScan k2 k).1 = []) := by
                  rw [hd0']
                  intro hd0
                  have htad := List.take_append_drop
                    (trieScan (k2.drop lab.length) (k.drop lab.length)).1
                    (k2.drop lab.length)
                  rw [hd0, List.append_nil] at htad
                  have h5 : (k.drop lab.length).take
                      (trieScan (k2.drop lab.length)
                        (k.drop lab.length)).1 = k.drop lab.length := by
                    rw [hn3, List.take_length]
                  have hseq : k2.drop lab.length = k.drop lab.length :=
                    htad.symm.trans (htake3.trans h5)
                  exact hk2 (by rw [← hk2split, hseq, hlabkk])
                rw [if_neg hsufne]
              · by_cases hn30 : (trieScan (k2.drop lab.length)
                    (k.drop lab.length)).1 = 0
                · have hne : ¬ (lab.length = k.length) := by
                    rw [hn30] at hm2k
                    omega
                  rcases hcgL : childGet bi lab.length with _ | c0
                  · apply Trie.get_child_none val k lo _ k2 hk2n
                    rw [hscan2, he3, hn30]
                    simp [childGet_childSet, hne, hcgL]
                  · have hp := hpure c0 (childGet_mem lab.length c0 bi hcgL)
                    obtain ⟨cv0, cl0, clo0, cbi0⟩ := c0
                    obtain ⟨hp1, hp2, hp3⟩ := hp
                    subst hp1; subst hp2; subst hp3
                    have hcgN : childGet (if (trieScan k2 k).2 then lo
                        else childSet bi k.length
                          (Trie.mk (some v) [] [] []))
                        (trieScan k2 k).1 =
                        some (Trie.mk cv0 [] [] []) := by
                      rw [hscan2, he3, hn30]
                      simp [childGet_childSet, hne, hcgL]
                    rw [Trie.get_child_some val k lo _ k2 _ hk2n hcgN,
                      Trie.get_pure_node]
                    have hsufne : ¬ (k2.drop (trieScan k2 k).1 = []) := by
                      rw [hscan2, hn30]
                      simpa using hsnil
                    rw [if_neg hsufne]
                · apply Trie.get_child_none val k lo _ k2 hk2n
                  rw [hscan2, he3]
                  have h0 : childGet bi (lab.length +
                      (trieScan (k2.drop lab.length)
                        (k.drop lab.length)).1) = none := by
                    apply childGet_none_of_ne
                    intro kc hkc
                    have := hbiK kc hkc
                    omega
                  simp [childGet_childSet, hm2k, h0]
            · apply Trie.get_child_none val k lo _ k2 hk2n
              rw [hscan2, he3]
              have h0 : childGet lo (lab.length +
                  (trieScan (k2.drop lab.length)
                    (k.drop lab.length)).1) = none := by
                apply childGet_none_of_ne
                intro kc hkc
                have := hloK kc hkc
                omega
              simpa using h0

theorem trie_insert_mismatch_none_spec [SizeOf T] (val : Option T)
    (lab : List Nat) (lo bi : List (Nat × Trie T)) (k : List Nat)
    (v : T)
    (hloK : ∀ kc ∈ lo, kc.1 < lab.length)
    (hbiK : ∀ kc ∈ bi, kc.1 ≤ lab.length)
    (hpure : ∀ c2 : Trie T, (lab.length, c2) ∈ bi → TriePure c2)
    (hloI : ∀ kc ∈ lo, TrieInv kc.2)
    (hbiI : ∀ kc ∈ bi, TrieInv kc.2)
    (hk : ¬ k = []) (hb : ¬ (trieScan k lab).1 = lab.length)
    (hcg : childGet (if (trieScan k lab).2 then lo else bi)
      (trieScan k lab).1 = none) :
    TrieInv ((Trie.mk val lab lo bi).insert k v).1 ∧
    ((Trie.mk val lab lo bi).insert k v).2 = (Trie.mk val lab lo bi).get k ∧
    (∀ k2 : List Nat, ((Trie.mk val lab lo bi).insert k v).1.get k2 =
      if k2 = k then some v else (Trie.mk val lab lo bi).get k2) := by
  have hnlt : (trieScan k lab).1 < lab.length :=
    lt_of_le_of_ne (trieScan_le k lab).2 hb
  have hgetk := Trie.get_child_none val lab lo bi k hk hcg
  rcases hd2 : (trieScan k lab).2
  · have hcg2 : childGet bi (trieScan k lab).1 = none := by
      rw [hd2] at hcg
      simpa using hcg
    have hins : (Trie.mk val lab lo bi).insert k v =
        (Trie.mk val lab lo (childSet bi (trieScan k lab).1
          (trieSingleton (k.drop (trieScan k lab).1) v)), none) := by
      rw [Trie.insert_mismatch_none val lab lo bi k v hk hb hcg, hd2,
        if_neg Bool.false_ne_true]
    rw [hins]
    refine ⟨?_, hgetk.symm, ?_⟩
    · refine TrieInv.mk hloK ?_ ?_ hloI ?_
      · intro kc hkc
        rcases childSet_mem _ _ kc bi hkc with hm | he
        · exact hbiK kc hm
        · rw [he]
          exact le_of_lt hnlt
      · intro c2 hc2
        rcases childSet_mem _ _ (lab.length, c2) bi hc2 with hm | he
        · exact hpure c2 hm
        · exfalso
          injection he with he1 _
          omega
      · intro kc hkc
        rcases childSet_mem _ _ kc bi hkc with hm | he
        · exact hbiI kc hm
        · rw [he]
          exact trieSingleton_inv _ v
    · intro k2
      show (Trie.mk val lab lo (childSet bi (trieScan k lab).1
          (trieSingleton (k.drop (trieScan k lab).1) v))).get k2 =
        if k2 = k then some v else (Trie.mk val lab lo bi).get k2
      by_cases hk2 : k2 = k
      · subst hk2
        rw [if_pos rfl]
        have hcg1 : childGet (if (trieScan k2 lab).2 then lo
            else childSet bi (trieScan k2 lab).1
              (trieSingleton (k2.drop (trieScan k2 lab).1) v))
            (trieScan k2 lab).1 =
            some (trieSingleton (k2.drop (trieScan k2 lab).1) v) := by
          rw [hd2]
          simp [childGet_childSet]
        rw [Trie.get_child_some val lab lo _ k2 _ hk hcg1,
          get_trieSingleton, if_pos rfl]
      · rw [if_neg hk2]
        by_cases hk2n : k2 = []
        · subst hk2n
          rw [Trie.get_nil, Trie.get_nil]
        · by_cases hslot : (trieScan k2 lab).2 = false ∧
              (trieScan k2 lab).1 = (trieScan k lab).1
          · obtain ⟨he2, hm2⟩ := hslot
            have hcgO : childGet (if (trieScan k2 lab).2 then lo else bi)
                (trieScan k2 lab).1 = none := by
              rw [he2, hm2]
              simpa using hcg2
            have hcgN : childGet (if (trieScan k2 lab).2 then lo
                else childSet bi (trieScan k lab).1
                  (trieSingleton (k.drop (trieScan k lab).1) v))
                (trieScan k2 lab).1 =
                some (trieSingleton (k.drop (trieScan k lab).1) v) := by
              rw [he2, hm2]
              simp [childGet_childSet]
            have hne : ¬ (k2.drop (trieScan k2 lab).1 =
                k.drop (trieScan k lab).1) :=
              fun hdeq => hk2 (scan_drop_eq_key_eq k k2 lab hm2 hdeq)
            rw [Trie.get_child_none val lab lo bi k2 hk2n hcgO,
              Trie.get_child_some val lab lo _ k2 _ hk2n hcgN,
              get_trieSingleton, if_neg hne]
          · apply get_mk_eq_of_route val val lab lo bi lo _ k2 hk2n
            rcases he2 : (trieScan k2 lab).2
            · have hm2 : ¬ ((trieScan k2 lab).1 = (trieScan k lab).1) :=
                fun hh => hslot ⟨he2, hh⟩
              simp [childGet_childSet, hm2]
            · simp
  · have hcg2 : childGet lo (trieScan k lab).1 = none := by
      rw [hd2] at hcg
      simpa using hcg
    have hins : (Trie.mk val lab lo bi).insert k v =
        (Trie.mk val lab (childSet lo (trieScan k lab).1
          (trieSingleton (k.drop (trieScan k lab).1) v)) bi, none) := by
      rw [Trie.insert_mismatch_none val lab lo bi k v hk hb hcg, hd2,
        if_pos rfl]
    rw [hins]
    refine ⟨?_, hgetk.symm, ?_⟩
    · refine TrieInv.mk ?_ hbiK hpure ?_ hbiI
      · intro kc hkc
        rcases childSet_mem _ _ kc lo hkc with hm | he
        · exact hloK kc hm
        · rw [he]
          exact hnlt
      · intro kc hkc
        rcases childSet_mem _ _ kc lo hkc with hm | he
        · exact hloI kc hm
        · rw [he]
          exact trieSingleton_inv _ v
    · intro k2
      show (Trie.mk val lab (childSet lo (trieScan k lab).1
          (trieSingleton (k.drop (trieScan k lab).1) v)) bi).get k2 =
        if k2 = k then some v else (Trie.mk val lab lo bi).get k2
      by_cases hk2 : k2 = k
      · subst hk2
        rw [if_pos rfl]
        have hcg1 : childGet (if (trieScan k2 lab).2 then
            childSet lo (trieScan k2 lab).1
              (trieSingleton (k2.drop (trieScan k2 lab).1) v) else bi)
            (trieScan k2 lab).1 =
            some (trieSingleton (k2.drop (trieScan k2 lab).1) v) := by
          rw [hd2]
          simp [childGet_childSet]
        rw [Trie.get_child_some val lab _ bi k2 _ hk hcg1,
          get_trieSingleton, if_pos rfl]
      · rw [if_neg hk2]
        by_cases hk2n : k2 = []
        · subst hk2n
          rw [Trie.get_nil, Trie.get_nil]
        · by_cases hslot : (trieScan k2 lab).2 = true ∧
              (trieScan k2 lab).1 = (trieScan k lab).1
          · obtain ⟨he2, hm2⟩ := hslot
            have hcgO : childGet (if (trieScan k2 lab).2 then lo else bi)
                (trieScan k2 lab).1 = none := by
              rw [he2, hm2]
              simpa using hcg2
            have hcgN : childGet (if (trieScan k2 lab).2 then
                childSet lo (trieScan k lab).1
                  (trieSingleton (k.drop (trieScan k lab).1) v) else bi)
                (trieScan k2 lab).1 =
                some (trieSingleton (k.drop (trieScan k lab).1) v) := by
              rw [he2, hm2]
              simp [childGet_childSet]
            have hne : ¬ (k2.drop (trieScan k2 lab).1 =
                k.drop (trieScan k lab).1) :=
              fun hdeq => hk2 (scan_drop_eq_key_eq k k2 lab hm2 hdeq)
            rw [Trie.get_child_none val lab lo bi k2 hk2n hcgO,
              Trie.get_child_some val lab _ bi k2 _ hk2n hcgN,
              get_trieSingleton, if_neg hne]
          · apply get_mk_eq_of_route val val lab lo bi _ bi k2 hk2n
            rcases he2 : (trieScan k2 lab).2
            · simp
            · have hm2 : ¬ ((trieScan k2 lab).1 = (trieScan k lab).1) :=
                fun hh => hslot ⟨he2, hh⟩
              simp [childGet_childSet, hm2]

theorem trie_insert_mismatch_some_spec [SizeOf T] (val : Option T)
    (lab : List Nat) (lo bi : List (Nat × Trie T)) (k : List Nat)
    (v : T) (child : Trie T)
    (hloK : ∀ kc ∈ lo, kc.1 < lab.length)
    (hbiK : ∀ kc ∈ bi, kc.1 ≤ lab.length)
    (hpure : ∀ c2 : Trie T, (lab.length, c2) ∈ bi → TriePure c2)
    (hloI : ∀ kc ∈ lo, TrieInv kc.2)
    (hbiI : ∀ kc ∈ bi, TrieInv kc.2)
    (hk : ¬ k = []) (hb : ¬ (trieScan k lab).1 = lab.length)
    (hcg : childGet (if (trieScan k lab).2 then lo else bi)
      (trieScan k lab).1 = some child)
    (IHinv : TrieInv (child.insert (k.drop (trieScan k lab).1) v).1)
    (IHret : (child.insert (k.drop (trieScan k lab).1) v).2 =
      child.get (k.drop (trieScan k lab).1))
    (IHget : ∀ k3 : List Nat,
      (child.insert (k.drop (trieScan k lab).1) v).1.get k3 =
        if k3 = k.drop (trieScan k lab).1 then some v
        else child.get k3) :
    TrieInv ((Trie.mk val lab lo bi).insert k v).1 ∧
    ((Trie.mk val lab lo bi).insert k v).2 = (Trie.mk val lab lo bi).get k ∧
    (∀ k2 : List Nat, ((Trie.mk val lab lo bi).insert k v).1.get k2 =
      if k2 = k then some v else (Trie.mk val lab lo bi).get k2) := by
  have hnlt : (trieScan k lab).1 < lab.length :=
    lt_of_le_of_ne (trieScan_le k lab).2 hb
  have hgetk := Trie.get_child_some val lab lo bi k child hk hcg
  rcases hd2 : (trieScan k lab).2
  · have hcg2 : childGet bi (trieScan k lab).1 = some child := by
      rw [hd2] at hcg
      simpa using hcg
    have hins : (Trie.mk val lab lo bi).insert k v =
        (Trie.mk val lab lo (childSet bi (trieScan k lab).1
          (child.insert (k.drop (trieScan k lab).1) v).1),
         (child.insert (k.drop (trieScan k lab).1) v).2) := by
      rw [Trie.insert_mismatch_some val lab lo bi k v child hk hb hcg,
        hd2, if_neg Bool.false_ne_true]
    rw [hins]
    refine ⟨?_, ?_, ?_⟩
    · refine TrieInv.mk hloK ?_ ?_ hloI ?_
      · intro kc hkc
        rcases childSet_mem _ _ kc bi hkc with hm | he
        · exact hbiK kc hm
        · rw [he]
          exact le_of_lt hnlt
      · intro c2 hc2
        rcases childSet_mem _ _ (lab.length, c2) bi hc2 with hm | he
        · exact hpure c2 hm
        · exfalso
          injection he with he1 _
          omega
      · intro kc hkc
        rcases childSet_mem _ _ kc bi hkc with hm | he
        · exact hbiI kc hm
        · rw [he]
          exact IHinv
    · rw [hgetk]
      exact IHret
    · intro k2
      show (Trie.mk val lab lo (childSet bi (trieScan k lab).1
          (child.insert (k.drop (trieScan k lab).1) v).1)).get k2 =
        if k2 = k then some v else (Trie.mk val lab lo bi).get k2
      by_cases hk2 : k2 = k
      · subst hk2
        rw [if_pos rfl]
        have hcg1 : childGet (if (trieScan k2 lab).2 then lo
            else childSet bi (trieScan k2 lab).1
              (child.insert (k2.drop (trieScan k2 lab).1) v).1)
            (trieScan k2 lab).1 =
            some (child.insert (k2.drop (trieScan k2 lab).1) v).1 := by
          rw [hd2]
          simp [childGet_childSet]
        rw [Trie.get_child_some val lab lo _ k2 _ hk hcg1, IHget,
          if_pos rfl]
      · rw [if_neg hk2]
        by_cases hk2n : k2 = []
        · subst hk2n
          rw [Trie.get_nil, Trie.get_nil]
        · by_cases hslot : (trieScan k2 lab).2 = false ∧
              (trieScan k2 lab).1 = (trieScan k lab).1
          · obtain ⟨he2, hm2⟩ := hslot
            have hcgO : childGet (if (trieScan k2 lab).2 then lo else bi)
                (trieScan k2 lab).1 = some child := by
              rw [he2, hm2]
              simpa using hcg2
            have hcgN : childGet (if (trieScan k2 lab).2 then lo
                else childSet bi (trieScan k lab).1
                  (child.insert (k.drop (trieScan k lab).1) v).1)
                (trieScan k2 lab).1 =
                some (child.insert (k.drop (trieScan k lab).1) v).1 := by
              rw [he2, hm2]
              simp [childGet_childSet]
            have hne : ¬ (k2.drop (trieScan k2 lab).1 =
                k.drop (trieScan k lab).1) :=
              fun hdeq => hk2 (scan_drop_eq_key_eq k k2 lab hm2 hdeq)
            rw [Trie.get_child_some val lab lo bi k2 child hk2n hcgO,
              Trie.get_child_some val lab lo _ k2 _ hk2n hcgN,
              IHget, if_neg hne]
          · apply get_mk_eq_of_route val val lab lo bi lo _ k2 hk2n
            rcases he2 : (trieScan k2 lab).2
            · have hm2 : ¬ ((trieScan k2 lab).1 = (trieScan k lab).1) :=
                fun hh => hslot ⟨he2, hh⟩
              simp [childGet_childSet, hm2]
            · simp
  · have hcg2 : childGet lo (trieScan k lab).1 = some child := by
      rw [hd2] at hcg
      simpa using hcg
    have hins : (Trie.mk val lab lo bi).insert k v =
        (Trie.mk val lab (childSet lo (trieScan k lab).1
          (child.insert (k.drop (trieScan k lab).1) v).1) bi,
         (child.insert (k.drop (trieScan k lab).1) v).2) := by
      rw [Trie.insert_mismatch_some val lab lo bi k v child hk hb hcg,
        hd2, if_pos rfl]
    rw [hins]
    refine ⟨?_, ?_, ?_⟩
    · refine TrieInv.mk ?_ hbiK hpure ?_ hbiI
      · intro kc hkc
        rcases childSet_mem _ _ kc lo hkc with hm | he
        · exact hloK kc hm
        · rw [he]
          exact hnlt
      · intro kc hkc
        rcases childSet_mem _ _ kc lo hkc with hm | he
        · exact hloI kc hm
        · rw [he]
          exact IHinv
    · rw [hgetk]
      exact IHret
    · intro k2
      show (Trie.mk val lab (childSet lo (trieScan k lab).1
          (child.insert (k.drop (trieScan k lab).1) v).1) bi).get k2 =
        if k2 = k then some v else (Trie.mk val lab lo bi).get k2
      by_cases hk2 : k2 = k
      · subst hk2
        rw [if_pos rfl]
        have hcg1 : childGet (if (trieScan k2 lab).2 then
            childSet lo (trieScan k2 lab).1
              (child.insert (k2.drop (trieScan k2 lab).1) v).1 else bi)
            (trieScan k2 lab).1 =
            some (child.insert (k2.drop (trieScan k2 lab).1) v).1 := by
          rw [hd2]
          simp [childGet_childSet]
        rw [Trie.get_child_some val lab _ bi k2 _ hk hcg1, IHget,
          if_pos rfl]
      · rw [if_neg hk2]
        by_cases hk2n : k2 = []
        · subst hk2n
          rw [Trie.get_nil, Trie.get_nil]
        · by_cases hslot : (trieScan k2 lab).2 = true ∧
              (trieScan k2 lab).1 = (trieScan k lab).1
          · obtain ⟨he2, hm2⟩ := hslot
            have hcgO : childGet (if (trieScan k2 lab).2 then lo else bi)
                (trieScan k2 lab).1 = some child := by
              rw [he2, hm2]
              simpa using hcg2
            have hcgN : childGet (if (trieScan k2 lab).2 then
                childSet lo (trieScan k lab).1
                  (child.insert (k.drop (trieScan k lab).1) v).1 else bi)
                (trieScan k2 lab).1 =
                some (child.insert (k.drop (trieScan k lab).1) v).1 := by
              rw [he2, hm2]
              simp [childGet_childSet]
            have hne : ¬ (k2.drop (trieScan k2 lab).1 =
                k.drop (trieScan k lab).1) :=
              fun hdeq => hk2 (scan_drop_eq_key_eq k k2 lab hm2 hdeq)
            rw [Trie.get_child_some val lab lo bi k2 child hk2n hcgO,
              Trie.get_child_some val lab _ bi k2 _ hk2n hcgN,
              IHget, if_neg hne]
          · apply get_mk_eq_of_route val val lab lo bi _ bi k2 hk2n
            rcases he2 : (trieScan k2 lab).2
            · simp
            · have hm2 : ¬ ((trieScan k2 lab).1 = (trieScan k lab).1) :=
                fun hh => hslot ⟨he2, hh⟩
              simp [childGet_childSet, hm2]

theorem trie_insert_spec [SizeOf T] :
    ∀ (N : Nat) (t : Trie T), sizeOf t < N → TrieInv t →
    ∀ (k : List Nat) (v : T),
    TrieInv (t.insert k v).1 ∧
    (t.insert k v).2 = t.get k ∧
    (∀ k2 : List Nat, (t.insert k v).1.get k2 =
      if k2 = k then some v else t.get k2) := by
  intro N
  induction N with
  | zero =>
    intro t hsz
    omega
  | succ N ih =>
    intro t hsz hinv k v
    obtain ⟨val, lab, lo, bi⟩ := t
    cases hinv with
    | mk hloK hbiK hpure hloI hbiI =>
    by_cases hk : k = []
    · subst hk
      rw [Trie.insert_nil]
      refine ⟨TrieInv.mk hloK hbiK hpure hloI hbiI, ?_, ?_⟩
      · rw [Trie.get_nil]
      · intro k2
        by_cases hk2 : k2 = []
        · subst hk2
          rw [Trie.get_nil, if_pos rfl]
        · rw [if_neg hk2]
          exact get_mk_eq_of_route val (some v) lab lo bi lo bi k2 hk2 rfl
    · by_cases hb : (trieScan k lab).1 = lab.length
      · have hd : (trieScan k lab).2 = false := trieScan_eq_label k lab hb
        rcases hcg : childGet bi k.length with _ | c
        · exact trie_insert_caseb_none_spec val lab lo bi k v hloK hbiK
            hpure hloI hbiI hk hb hcg
        · exact trie_insert_caseb_some_spec val lab lo bi k v c hloK hbiK
            hpure hloI hbiI hk hb hcg
      · rcases hcg : childGet (if (trieScan k lab).2 then lo else bi)
            (trieScan k lab).1 with _ | child
        · exact trie_insert_mismatch_none_spec val lab lo bi k v hloK
            hbiK hpure hloI hbiI hk hb hcg
        · have hment := childGet_mem _ child _ hcg
          have hchildinv : TrieInv child := by
            rcases hd2 : (trieScan k lab).2
            · rw [hd2] at hment
              simp only [Bool.false_eq_true, if_false] at hment
              exact hbiI _ hment
            · rw [hd2] at hment
              simp only [if_true] at hment
              exact hloI _ hment
          have hchildsz : sizeOf child < N := by
            have h1 := childGet_sizeOf (trieScan k lab).1 child _ hcg
            have h2 : sizeOf (if (trieScan k lab).2 then lo else bi) ≤
                sizeOf lo + sizeOf bi := by
              rcases h3 : (trieScan k lab).2 <;> simp [h3]
            simp at hsz
            omega
          obtain ⟨IHinv, IHret, IHget⟩ :=
            ih child hchildsz hchildinv (k.drop (trieScan k lab).1) v
          exact trie_insert_mismatch_some_spec val lab lo bi k v child
            hloK hbiK hpure hloI hbiI hk hb hcg IHinv IHret IHget

theorem trie_new_inv : TrieInv (Trie.new : Trie T) :=
  TrieInv.mk (by simp) (by simp) (by simp) (by simp) (by simp)

theorem trie_new_get [SizeOf T] (k : List Nat) :
    (Trie.new : Trie T).get k = none := by
  show Trie.get (.mk none [] [] []) k = none
  rw [Trie.get_pure_node]
  simp

theorem opsLookup_append (ops : List (List Nat × T))
    (kv : List Nat × T) (k : List Nat) :
    opsLookup (ops ++ [kv]) k =
      if kv.1 = k then some kv.2 else opsLookup ops k := by
  rw [opsLookup, opsLookup, List.foldl_append]
  rfl

theorem buildTrie_append [SizeOf T] (ops : List (List Nat × T))
    (kv : List Nat × T) :
    buildTrie (ops ++ [kv]) = ((buildTrie ops).insert kv.1 kv.2).1 := by
  rw [buildTrie, buildTrie, List.foldl_append]
  rfl

theorem buildTrie_spec [SizeOf T] (ops : List (List Nat × T)) :
    TrieInv (buildTrie ops) ∧
    ∀ k : List Nat, (buildTrie ops).get k = opsLookup ops k := by
  induction ops using List.reverseRecOn with
  | nil =>
    exact ⟨trie_new_inv, fun k => trie_new_get k⟩
  | append_singleton ops kv ih =>
    obtain ⟨ih1, ih2⟩ := ih
    have hmain := trie_insert_spec (sizeOf (buildTrie ops) + 1)
      (buildTrie ops) (by omega) ih1 kv.1 kv.2
    constructor
    · rw [buildTrie_append]
      exact hmain.1
    · intro k
      rw [buildTrie_append, opsLookup_append, hmain.2.2 k]
      by_cases h : k = kv.1
      · simp [h]
      · have h2 : ¬ (kv.1 = k) := fun hh => h hh.symm
        simp [h, h2, ih2]

/-- C9: starting from `Trie::new()` and applying any finite sequence of
`insert(k, v)` operations, `get(k)` returns the value of the most recent
insert with key `k` (`none` if `k` was never inserted), and a further
`insert(k, v)` returns the previously associated value. -/
theorem trie_functional [SizeOf T] (ops : List (List Nat × T))
    (k : List Nat) (v : T) :
    (buildTrie ops).get k = opsLookup ops k ∧
    ((buildTrie ops).insert k v).2 = opsLookup ops k := by
  have hs := buildTrie_spec ops
  refine ⟨hs.2 k, ?_⟩
  have hmain := trie_insert_spec (sizeOf (buildTrie ops) + 1)
    (buildTrie ops) (by omega) hs.1 k v
  rw [hmain.2.1, hs.2 k]
